import Mathlib

/-!
# Proof-of-work retargeting and work verification (`src/pow.cpp`)

A shallow embedding of `GetNextWorkRequired`, `LwmaGetNextWorkRequired`,
`LwmaCalculateNextWorkRequired` and `CheckProofOfWork`.

Conventions of the embedding:

* `int64_t` quantities (`T`, `N`, `k`, `t`, `j`, `solvetime`, block times) are
  `Int`.  Signed overflow is undefined behaviour in C++, so theorems that depend
  on machine arithmetic carry the hypothesis `NoInt64Overflow`, which says the
  intermediate values of the retarget fit in an `int64_t`.
* `arith_uint256` is `Nat` reduced modulo `2 ^ 256` at every operation that can
  exceed the width (`+=`, `*`, `<<=`).  Construction of an `arith_uint256` from an
  `int64_t` goes through `uint64_t`, which is `ofInt64`.
* `uint256` (hashes, `powLimit`) is `Nat`; `UintToArith256` reads it as a 256-bit
  unsigned integer.
* A `const CBlockIndex*` is the list of block-index entries from genesis
  (height 0) up to the pointed-to block; the null pointer is the empty list.
* Failing assertions, failed ancestor lookups that would be dereferenced, and
  division by zero are `none`.
* The retarget functions return, next to the compact value, the list of heights
  they passed to `GetAncestor`, in call order.
-/

namespace Pow

/-! ## Data model -/

/-- Fields of `Consensus::Params` read by `pow.cpp`. -/
structure Params where
  fPowAllowMinDifficultyBlocks : Bool
  nPowTargetSpacing : Int
  nZawyLwmaAveragingWindow : Int
  powLimit : Nat
  deriving DecidableEq, Repr

/-- Fields of a `CBlockIndex` entry read by `pow.cpp`; `nHeight` is the
position of the entry in its chain. -/
structure CBlockIndex where
  nTime : Nat
  nBits : Nat
  deriving DecidableEq, Repr

/-- Fields of `CBlockHeader` read by `pow.cpp`; hashes, nonce and solution are
the numbers and byte strings they hold. -/
structure CBlockHeader where
  nVersion : Nat := 0
  hashPrevBlock : Nat := 0
  hashMerkleRoot : Nat := 0
  nTime : Nat
  nBits : Nat := 0
  nNonce : Nat := 0
  nSolution : List Nat := []
  deriving DecidableEq, Repr

/-- A `const CBlockIndex*`: entries from genesis up to the block pointed to. -/
abbrev Chain := List CBlockIndex

/-- Field `pindexLast->nHeight`. -/
def nHeight (c : Chain) : Int := (c.length : Int) - 1

/-- Method `CBlockIndex::GetBlockTime`, `(int64_t)nTime`. -/
def CBlockIndex.GetBlockTime (b : CBlockIndex) : Int := (b.nTime : Int)

/-- Method `CBlockHeader::GetBlockTime`, `(int64_t)nTime`. -/
def CBlockHeader.GetBlockTime (b : CBlockHeader) : Int := (b.nTime : Int)

/-- Modelled from the spec: `CBlockIndex::GetAncestor` (chain.cpp is absent).
The lookup is made on a block of height `fromHeight`; it is valid for heights
up to that block and fails if the height is negative or exceeds it. -/
def GetAncestor (chain : Chain) (fromHeight height : Int) : Option CBlockIndex :=
  if height > fromHeight ∨ height < 0 then none else chain[height.toNat]?

/-! ## 256-bit arithmetic and the target codec -/

/-- Conversion `uint256 -> arith_uint256`: the value read as a 256-bit unsigned integer. -/
def UintToArith256 (x : Nat) : Nat := x % 2 ^ 256

/-- Construction of an `arith_uint256` from an `int64_t` (through `uint64_t`). -/
def ofInt64 (x : Int) : Nat := (x % 2 ^ 64).toNat

/-- Bit length by repeated halving, with the given number of steps. -/
def bitsAux : Nat → Nat → Nat
  | 0, _ => 0
  | f + 1, x => if x = 0 then 0 else bitsAux f (x / 2) + 1

/-- Modelled from the spec: `arith_uint256::bits` (arith_uint256.cpp is absent),
the position of the highest set bit plus one, zero for zero, of a 256-bit value. -/
def bits (x : Nat) : Nat := bitsAux 256 x

/-- Result of decoding a compact target. -/
structure Decoded where
  target : Nat
  fNegative : Bool
  fOverflow : Bool
  deriving DecidableEq, Repr

/-- Exponent byte (byte 3) of a 32-bit compact value. -/
def compactExponent (nCompact : Nat) : Nat := nCompact / 2 ^ 24 % 256

/-- Mantissa (bytes 0-2) of a compact value with bit 23 masked off. -/
def compactMantissa (nCompact : Nat) : Nat := nCompact % 2 ^ 23

/-- Bit 23 of a compact value, the sign flag. -/
def compactSign (nCompact : Nat) : Bool := nCompact / 2 ^ 23 % 2 == 1

/-- The shifted representation of a compact value before truncation to 256
bits: `m` right-shifted by `8*(3-e)` if `e ≤ 3`, otherwise left-shifted by
`8*(e-3)`. -/
def compactShifted (nCompact : Nat) : Nat :=
  let e := compactExponent nCompact
  let m := compactMantissa nCompact
  if e ≤ 3 then m >>> (8 * (3 - e)) else m <<< (8 * (e - 3))

/-- Modelled from the spec: `arith_uint256::SetCompact` (arith_uint256.cpp is
absent), section 4.1 `decode`.  The value is the shifted mantissa kept to 256
bits; `negative` is true if bit 23 was set and `m != 0`; `overflow` is true if
the shifted representation needs more than 32 bytes, that is, if it is at
least `256 ^ 32`. -/
def SetCompact (nCompact : Nat) : Decoded :=
  { target := compactShifted nCompact % 2 ^ 256
    fNegative := compactSign nCompact && compactMantissa nCompact != 0
    fOverflow := decide (256 ^ 32 ≤ compactShifted nCompact) }

/-- Modelled from the spec: `arith_uint256::GetCompact` (arith_uint256.cpp is
absent), section 4.1 `encode`.  The exponent is the byte length of the value
and the mantissa its three most significant bytes; if the top bit of the
mantissa is set the exponent is increased by one and the mantissa shifted right
by 8. -/
def GetCompact (x : Nat) : Nat :=
  let nSize := (bits x + 7) / 8
  let nCompact := if nSize ≤ 3 then x <<< (8 * (3 - nSize)) else x >>> (8 * (nSize - 3))
  if 2 ^ 23 ≤ nCompact then (nSize + 1) * 2 ^ 24 + (nCompact >>> 8)
  else nSize * 2 ^ 24 + nCompact

/-! ## Work verifier -/

/-- Function `CheckProofOfWork` (pow.cpp:119-159); logging omitted. -/
def CheckProofOfWork (hash : Nat) (nBits : Nat) (params : Params) : Bool :=
  let d := SetCompact nBits
  let bnTarget := d.target
  if d.fNegative || bnTarget == 0 || d.fOverflow
      || decide (bnTarget > UintToArith256 params.powLimit) then
    false
  else if UintToArith256 hash > bnTarget then
    false
  else
    true

/-! ## Retarget engine -/

/-- Local variables of the loop of `LwmaCalculateNextWorkRequired`, with the
heights passed to `GetAncestor` so far. -/
structure LwmaState where
  t : Int
  j : Int
  sum_target : Nat
  reads : List Int
  deriving DecidableEq, Repr

/-- Expression `std::max(-6*T, std::min(solvetime, 6*T))` (pow.cpp:73). -/
def clampSolvetime (T solvetime : Int) : Int := max (-6 * T) (min solvetime (6 * T))

/-- Constant `k = N*(N+1)*T/2` (pow.cpp:61); C++ division truncates. -/
def lwmaK (N T : Int) : Int := (N * (N + 1) * T).tdiv 2

/-- One iteration of the loop body (pow.cpp:70-78) at height `i`. -/
def lwmaBody (c : Chain) (height T k N i : Int) (s : LwmaState) : Option LwmaState :=
  match GetAncestor c height i with
  | none => none
  | some block =>
    match GetAncestor c i (i - 1) with
    | none => none
    | some block_Prev =>
      let solvetime := clampSolvetime T (block.GetBlockTime - block_Prev.GetBlockTime)
      let j := s.j + 1
      let t := s.t + solvetime * j
      let target := (SetCompact block.nBits).target
      let divisor := ofInt64 (k * N)
      if divisor = 0 then none
      else some
        { t := t
          j := j
          sum_target := (s.sum_target + target / divisor) % 2 ^ 256
          reads := s.reads ++ [i, i - 1] }

/-- The loop `for (int i = ...; i <= height; i++)` (pow.cpp:69-79), as the given
number of iterations starting at height `i`. -/
def lwmaLoop (c : Chain) (height T k N : Int) : Nat → Int → LwmaState → Option LwmaState
  | 0, _, s => some s
  | n + 1, i, s =>
    match lwmaBody c height T k N i s with
    | none => none
    | some s' => lwmaLoop c height T k N n (i + 1) s'

/-- State of `LwmaCalculateNextWorkRequired` when the loop exits (pow.cpp:58-79):
the assertion `height > N`, then the loop from `height - N + 1` to `height`. -/
def lwmaAccumulate (pindexLast : Chain) (params : Params) : Option LwmaState :=
  let T := params.nPowTargetSpacing
  let N := params.nZawyLwmaAveragingWindow
  let k := lwmaK N T
  let height := nHeight pindexLast
  if height > N then
    let i0 := height - N + 1
    lwmaLoop pindexLast height T k N (height - i0 + 1).toNat i0
      { t := 0, j := 0, sum_target := 0, reads := [] }
  else none

/-- The floor step `if (t < k/10) t = k/10;` (pow.cpp:81-85): the value of `t`
after it. -/
def lwmaFloor (k t : Int) : Int := if t < k.tdiv 10 then k.tdiv 10 else t

/-- Function `LwmaCalculateNextWorkRequired` (pow.cpp:56-90): the compact value
returned and the heights passed to `GetAncestor`. -/
def LwmaCalculateNextWorkRequired (pindexLast : Chain) (params : Params) :
    Option (Nat × List Int) :=
  match lwmaAccumulate pindexLast params with
  | none => none
  | some s =>
    let k := lwmaK params.nZawyLwmaAveragingWindow params.nPowTargetSpacing
    let t := lwmaFloor k s.t
    let next_target := ofInt64 t * s.sum_target % 2 ^ 256
    some (GetCompact next_target, s.reads)

/-- Function `LwmaGetNextWorkRequired` (pow.cpp:37-54); `tip` is `*pindexLast`. -/
def LwmaGetNextWorkRequired (pindexLast : Chain) (tip : CBlockIndex) (pblock : CBlockHeader)
    (params : Params) : Option (Nat × List Int) :=
  if params.fPowAllowMinDifficultyBlocks
      && decide (pblock.GetBlockTime > tip.GetBlockTime + params.nPowTargetSpacing * 2) then
    some (GetCompact (UintToArith256 params.powLimit), [])
  else if nHeight pindexLast ≤ params.nZawyLwmaAveragingWindow then
    some (GetCompact (UintToArith256 params.powLimit), [])
  else
    LwmaCalculateNextWorkRequired pindexLast params

/-- Function `GetNextWorkRequired` (pow.cpp:31-35): asserts `pindexLast != nullptr`. -/
def GetNextWorkRequired (pindexLast : Chain) (pblock : CBlockHeader) (params : Params) :
    Option (Nat × List Int) :=
  match pindexLast.getLast? with
  | none => none
  | some tip => LwmaGetNextWorkRequired pindexLast tip pblock params

/-- The intermediate values of the retarget fit in an `int64_t`: the divisor
`k * N` and the largest weighted time `6 * k`. -/
def NoInt64Overflow (N T : Int) : Prop := lwmaK N T * N < 2 ^ 63 ∧ 6 * lwmaK N T < 2 ^ 63

instance (N T : Int) : Decidable (NoInt64Overflow N T) := by
  unfold NoInt64Overflow; infer_instance

/-! ## Proof verifier -/

/-- Modelled from the spec: `CEquihashInput` (primitives/block.h is absent), the
header's consensus fields without nonce and solution: version, previous hash,
merkle root, time, target field. -/
structure CEquihashInput where
  nVersion : Nat
  hashPrevBlock : Nat
  hashMerkleRoot : Nat
  nTime : Nat
  nBits : Nat
  deriving DecidableEq, Repr

/-- Constructor `CEquihashInput I{*pblock}` (pow.cpp:102). -/
def CEquihashInput.ofHeader (pblock : CBlockHeader) : CEquihashInput :=
  { nVersion := pblock.nVersion
    hashPrevBlock := pblock.hashPrevBlock
    hashMerkleRoot := pblock.hashMerkleRoot
    nTime := pblock.nTime
    nBits := pblock.nBits }

/-- The external collaborators of `CheckEquihashSolution`, over a type of hash
states: `EhInitialiseState`, `blake2b_update`, the oracle `EhIsValidSolution`,
and the stream serialisers of `CEquihashInput` and of the nonce. -/
structure EquihashEnv (HashState : Type) where
  EhInitialiseState : Nat → Nat → String → HashState
  blake2b_update : HashState → List Nat → HashState
  EhIsValidSolution : Nat → Nat → HashState → List Nat → Bool
  serializeInput : CEquihashInput → List Nat
  serializeNonce : Nat → List Nat

/-- The stream `ss` after `ss << I; ss << pblock->nNonce;` (pow.cpp:104-106). -/
def equihashPreimage {HashState : Type} (env : EquihashEnv HashState)
    (pblock : CBlockHeader) : List Nat :=
  env.serializeInput (CEquihashInput.ofHeader pblock) ++ env.serializeNonce pblock.nNonce

/-- Function `CheckEquihashSolution` (pow.cpp:92-117); `n` and `k` are
`params.EquihashN()` and `params.EquihashK()`. -/
def CheckEquihashSolution {HashState : Type} (env : EquihashEnv HashState)
    (pblock : CBlockHeader) (n k : Nat) (personalizationString : String) : Bool :=
  let state := env.EhInitialiseState n k personalizationString
  let ss := equihashPreimage env pblock
  let state := env.blake2b_update state ss
  let isValid := env.EhIsValidSolution n k state pblock.nSolution
  if !isValid then false else true

/-! ## Quantities named by the specification -/

/-- Block time at a height of the chain (0 where the chain has no such height). -/
def timeAt (chain : Chain) (h : Int) : Int :=
  match chain[h.toNat]? with
  | some b => b.GetBlockTime
  | none => 0

/-- Compact target field `nBits` of the block at a height of the chain (0 where
the chain has no such height). -/
def bitsAt (chain : Chain) (h : Int) : Nat :=
  match chain[h.toNat]? with
  | some b => b.nBits
  | none => 0

/-- Decoded target of the block at a height of the chain. -/
def targetAt (chain : Chain) (h : Int) : Nat := (SetCompact (bitsAt chain h)).target

/-- Raw solvetime of the `j`-th pair of the window of `N` pairs ending at the
tip: `time[h-N+j] - time[h-N+j-1]`. -/
def solvetimeAt (chain : Chain) (N : Int) (j : Nat) : Int :=
  timeAt chain (nHeight chain - N + j) - timeAt chain (nHeight chain - N + j - 1)

/-- Byte length `(bits() + 7) / 8` of a 256-bit value. -/
def byteLength (x : Nat) : Nat := (bits x + 7) / 8

/-- The three most significant bytes of a value (left-aligned when the value has
fewer than three bytes): the mantissa `GetCompact` starts from. -/
def topMantissa (x : Nat) : Nat :=
  if byteLength x ≤ 3 then x <<< (8 * (3 - byteLength x)) else x >>> (8 * (byteLength x - 3))

/-- A chain of 47 blocks spaced 600 seconds apart, all with compact target 0x1d00ffff. -/
def steadyChain : Chain :=
  (List.range 47).map fun i => { nTime := 600 * i, nBits := 0x1d00ffff }

/-- Parameters of the end-to-end scenario: powLimit 0x1effffff (compact),
averaging window 45, target spacing 600. -/
def steadyParams : Params :=
  { fPowAllowMinDifficultyBlocks := false
    nPowTargetSpacing := 600
    nZawyLwmaAveragingWindow := 45
    powLimit := (SetCompact 0x1effffff).target }

/-- Heights passed to `GetAncestor` by the given number of loop iterations
starting at height `i`. -/
def lwmaReads : Nat → Int → List Int
  | 0, _ => []
  | n + 1, i => i :: (i - 1) :: lwmaReads n (i + 1)

/-- Written from the specification (section 4.2 step 3): the weighted time
`t`, the sum over `j = 1..N` of `j * clamp(time[h-N+j] - time[h-N+j-1], -6T, 6T)`
for a chain whose tip has height `h`. -/
def specWeightedTime (chain : Chain) (N T : Int) : Int :=
  ∑ j in Finset.Icc 1 N.toNat,
    (j : Int) * clampSolvetime T
      (timeAt chain (nHeight chain - N + j) - timeAt chain (nHeight chain - N + j - 1))

/-- Written from the specification (section 4.2 step 3): `sum_target`, the sum
over `j = 1..N` of `floor(decode(bits[h-N+j]) / (k*N))` with `k = N*(N+1)*T/2`. -/
def specSumTarget (chain : Chain) (N T : Int) : Nat :=
  ∑ j in Finset.Icc 1 N.toNat,
    targetAt chain (nHeight chain - N + j) / (N * (N + 1) * T / 2 * N).toNat

/-- Written from the specification (section 4.2 steps 4 and 5): the compact
value `encode(t' * S mod 2^256)` with `t' = max(t, k/10)`. -/
def specNextTarget (chain : Chain) (N T : Int) : Nat :=
  GetCompact
    ((max (specWeightedTime chain N T) (N * (N + 1) * T / 2 / 10)
        * (specSumTarget chain N T : Int)) % 2 ^ 256).toNat

/-- A chain with the given block times, genesis first, every block with compact
target 0x1d00ffff. -/
def chainOfTimes (times : List Nat) : Chain := times.map fun t => { nTime := t, nBits := 0x1d00ffff }

/-- Small parameters for worked examples: averaging window 2, target spacing 10. -/
def smallParams : Params :=
  { fPowAllowMinDifficultyBlocks := false
    nPowTargetSpacing := 10
    nZawyLwmaAveragingWindow := 2
    powLimit := (SetCompact 0x1effffff).target }

/-- Parameters whose powLimit is the target of compact value 0x1d00ffff:
averaging window 2, target spacing 10. -/
def slowParams : Params :=
  { fPowAllowMinDifficultyBlocks := false
    nPowTargetSpacing := 10
    nZawyLwmaAveragingWindow := 2
    powLimit := (SetCompact 0x1d00ffff).target }

/-- A four-block chain spaced 10 seconds apart whose blocks carry the compact
target 0x015a0000, which decodes to 90. -/
def tinyChain : Chain :=
  [⟨0, 0x015a0000⟩, ⟨10, 0x015a0000⟩, ⟨20, 0x015a0000⟩, ⟨30, 0x015a0000⟩]

/-- The sum-then-divide alternative to `sum_target`:
`floor((sum over j = 1..N of decode(bits[h-N+j])) / (k*N))`. -/
def sumThenDivide (chain : Chain) (N T : Int) : Nat :=
  (∑ j in Finset.Icc 1 N.toNat, targetAt chain (nHeight chain - N + j))
    / (N * (N + 1) * T / 2 * N).toNat

/-- The compact value the retarget would return with the sum-then-divide
alternative in place of the per-term sum. -/
def sumThenDivideNextTarget (chain : Chain) (N T : Int) : Nat :=
  GetCompact
    ((max (specWeightedTime chain N T) (N * (N + 1) * T / 2 / 10)
        * (sumThenDivide chain N T : Int)) % 2 ^ 256).toNat

/-! ## Work verifier: facts -/

theorem compactMantissa_lt (n : Nat) : compactMantissa n < 2 ^ 23 :=
  Nat.mod_lt _ (by norm_num)

theorem compactShifted_small (n : Nat) (he : compactExponent n ≤ 3) :
    compactShifted n < 2 ^ 23 := by
  unfold compactShifted
  simp only [he, if_true]
  rw [Nat.shiftRight_eq_div_pow]
  exact lt_of_le_of_lt (Nat.div_le_self _ _) (compactMantissa_lt n)

theorem compactShifted_large (n : Nat) (he : ¬ compactExponent n ≤ 3) :
    compactShifted n = compactMantissa n * 256 ^ (compactExponent n - 3) := by
  unfold compactShifted
  simp only [he, if_false]
  rw [Nat.shiftLeft_eq, pow_mul]
  norm_num

theorem compactShifted_dvd (n : Nat) (he : ¬ compactExponent n ≤ 3) :
    256 ∣ compactShifted n := by
  rw [compactShifted_large n he]
  obtain ⟨d, hd⟩ : ∃ d, compactExponent n - 3 = d + 1 := ⟨compactExponent n - 4, by omega⟩
  rw [hd, pow_succ]
  exact ⟨compactMantissa n * 256 ^ d, by ring⟩

theorem target_eq_of_not_overflow (n : Nat) (h : (SetCompact n).fOverflow = false) :
    (SetCompact n).target = compactShifted n := by
  simp only [SetCompact, decide_eq_false_iff_not, not_le] at h ⊢
  exact Nat.mod_eq_of_lt (by norm_num at h ⊢; exact h)

theorem target_succ_lt (n : Nat) (h : (SetCompact n).fOverflow = false) :
    (SetCompact n).target + 1 < 2 ^ 256 := by
  rw [target_eq_of_not_overflow n h]
  simp only [SetCompact, decide_eq_false_iff_not, not_le] at h
  by_cases he : compactExponent n ≤ 3
  · have := compactShifted_small n he
    norm_num at this ⊢
    omega
  · obtain ⟨q, hq⟩ := compactShifted_dvd n he
    norm_num at h ⊢
    omega

/-- C2: for a compact target that decodes with negative = false, overflow = false
and 0 < Target ≤ powLimit, `CheckProofOfWork` returns true exactly when the hash
read as a 256-bit unsigned integer is at most Target; it accepts hash = Target
and rejects hash = Target + 1. -/
theorem CheckProofOfWork_iff_hash_le_target (hash nBits : Nat) (params : Params)
    (hneg : (SetCompact nBits).fNegative = false)
    (hov : (SetCompact nBits).fOverflow = false)
    (hpos : 0 < (SetCompact nBits).target)
    (hle : (SetCompact nBits).target ≤ UintToArith256 params.powLimit) :
    (CheckProofOfWork hash nBits params = true ↔
        UintToArith256 hash ≤ (SetCompact nBits).target)
      ∧ CheckProofOfWork (SetCompact nBits).target nBits params = true
      ∧ CheckProofOfWork ((SetCompact nBits).target + 1) nBits params = false := by
  have hsucc := target_succ_lt nBits hov
  have hne : ¬ (SetCompact nBits).target = 0 := by omega
  have hgt : ¬ (SetCompact nBits).target > UintToArith256 params.powLimit := by omega
  have key : ∀ h : Nat, CheckProofOfWork h nBits params = true ↔
      UintToArith256 h ≤ (SetCompact nBits).target := by
    intro h
    have hb : ((SetCompact nBits).target == 0) = false := by simpa using hne
    have hd : decide ((SetCompact nBits).target > UintToArith256 params.powLimit) = false := by
      simpa using hgt
    unfold CheckProofOfWork
    simp only [hneg, hov, hb, hd, Bool.or_self, Bool.false_eq_true, if_false]
    by_cases hh : UintToArith256 h > (SetCompact nBits).target
    · simp only [hh, if_true, Bool.false_eq_true, false_iff, not_le]
    · simp only [hh, if_false, true_iff]
      omega
  refine ⟨key hash, (key _).2 ?_, ?_⟩
  · unfold UintToArith256
    exact Nat.mod_le _ _
  · have h1 : ¬ CheckProofOfWork ((SetCompact nBits).target + 1) nBits params = true := by
      rw [key]
      unfold UintToArith256
      rw [Nat.mod_eq_of_lt hsucc]
      omega
    simpa using h1

/-- Witness for C2 at the compact target 0x1d00ffff under powLimit = decode(0x1effffff). -/
theorem CheckProofOfWork_iff_hash_le_target_witness :
    (SetCompact 0x1d00ffff).fNegative = false ∧ (SetCompact 0x1d00ffff).fOverflow = false ∧
    0 < (SetCompact 0x1d00ffff).target ∧
    ((CheckProofOfWork 5 0x1d00ffff ⟨false, 600, 45, (SetCompact 0x1effffff).target⟩ = true ↔
        UintToArith256 5 ≤ (SetCompact 0x1d00ffff).target)
      ∧ CheckProofOfWork (SetCompact 0x1d00ffff).target 0x1d00ffff
          ⟨false, 600, 45, (SetCompact 0x1effffff).target⟩ = true
      ∧ CheckProofOfWork ((SetCompact 0x1d00ffff).target + 1) 0x1d00ffff
          ⟨false, 600, 45, (SetCompact 0x1effffff).target⟩ = false) :=
  ⟨by decide, by decide, by decide,
    CheckProofOfWork_iff_hash_le_target 5 0x1d00ffff ⟨false, 600, 45, (SetCompact 0x1effffff).target⟩
      (by decide) (by decide) (by decide) (by decide)⟩

/-- C3: for every hash and every powLimit, `CheckProofOfWork` returns false when
the compact target decodes with the negative flag set, or with the overflow flag
set, or to zero, or to a value strictly greater than powLimit. -/
theorem CheckProofOfWork_rejects_invalid_target (hash nBits : Nat) (params : Params)
    (h : (SetCompact nBits).fNegative = true ∨ (SetCompact nBits).fOverflow = true ∨
      (SetCompact nBits).target = 0 ∨
      (SetCompact nBits).target > UintToArith256 params.powLimit) :
    CheckProofOfWork hash nBits params = false := by
  unfold CheckProofOfWork
  rcases h with h | h | h | h
  · simp [h]
  · simp [h]
  · simp [h]
  · simp [h]

/-- Witness for C3: hash 0 against the negative compact value 0x1d80ffff. -/
theorem CheckProofOfWork_rejects_invalid_target_witness :
    (SetCompact 0x1d80ffff).fNegative = true ∧
    CheckProofOfWork 0 0x1d80ffff ⟨false, 600, 45, (SetCompact 0x1effffff).target⟩ = false :=
  ⟨by decide, CheckProofOfWork_rejects_invalid_target 0 0x1d80ffff
    ⟨false, 600, 45, (SetCompact 0x1effffff).target⟩ (Or.inl (by decide))⟩

/-- C4 (Bypass A): if `fPowAllowMinDifficultyBlocks` is set and the candidate
header's time is strictly greater than the tip's time plus twice the target
spacing, `GetNextWorkRequired` returns encode(powLimit), whatever the chain
holds and whatever its height, and looks up no ancestor. -/
theorem GetNextWorkRequired_bypassA (pindexLast : Chain) (tip : CBlockIndex)
    (pblock : CBlockHeader) (params : Params)
    (htip : pindexLast.getLast? = some tip)
    (hmin : params.fPowAllowMinDifficultyBlocks = true)
    (htime : pblock.GetBlockTime > tip.GetBlockTime + 2 * params.nPowTargetSpacing) :
    GetNextWorkRequired pindexLast pblock params
      = some (GetCompact (UintToArith256 params.powLimit), []) := by
  have h2 : pblock.GetBlockTime > tip.GetBlockTime + params.nPowTargetSpacing * 2 := by
    rw [mul_comm]; exact htime
  simp [GetNextWorkRequired, LwmaGetNextWorkRequired, htip, hmin, h2]

/-- Witness for C4: a three-block chain far above the window size check, candidate 1201 seconds
after the tip. -/
theorem GetNextWorkRequired_bypassA_witness :
    GetNextWorkRequired [⟨0, 0x1d00ffff⟩, ⟨600, 0x1d00ffff⟩, ⟨1200, 0x1d00ffff⟩] { nTime := 2401 }
        ⟨true, 600, 1, (SetCompact 0x1effffff).target⟩
      = some (GetCompact (UintToArith256 (SetCompact 0x1effffff).target), []) :=
  GetNextWorkRequired_bypassA [⟨0, 0x1d00ffff⟩, ⟨600, 0x1d00ffff⟩, ⟨1200, 0x1d00ffff⟩]
    ⟨1200, 0x1d00ffff⟩ { nTime := 2401 } ⟨true, 600, 1, (SetCompact 0x1effffff).target⟩
    (by decide) (by decide) (by decide)

/-- C5 (Bypass B): for every chain tip of height at most the averaging window
(the boundary height = window included), every candidate header and either
setting of `fPowAllowMinDifficultyBlocks`, `GetNextWorkRequired` returns
encode(powLimit) and passes no height to the ancestor lookup. -/
theorem GetNextWorkRequired_bypassB (pindexLast : Chain) (pblock : CBlockHeader)
    (params : Params) (hne : pindexLast ≠ [])
    (hh : nHeight pindexLast ≤ params.nZawyLwmaAveragingWindow) :
    GetNextWorkRequired pindexLast pblock params
      = some (GetCompact (UintToArith256 params.powLimit), []) := by
  obtain ⟨tip, htip⟩ : ∃ tip, pindexLast.getLast? = some tip :=
    ⟨pindexLast.getLast hne, List.getLast?_eq_getLast _ hne⟩
  unfold GetNextWorkRequired LwmaGetNextWorkRequired
  rw [htip]
  by_cases hA : (params.fPowAllowMinDifficultyBlocks
      && decide (pblock.GetBlockTime > tip.GetBlockTime + params.nPowTargetSpacing * 2)) = true
  · simp only [hA, if_true]
  · simp only [hA, hh, if_true]
    simp

/-- Witness for C5: the boundary case height = averagingWindow = 2. -/
theorem GetNextWorkRequired_bypassB_witness :
    nHeight [⟨0, 0x1d00ffff⟩, ⟨600, 0x1d00ffff⟩, ⟨1200, 0x1d00ffff⟩] = 2 ∧
    GetNextWorkRequired [⟨0, 0x1d00ffff⟩, ⟨600, 0x1d00ffff⟩, ⟨1200, 0x1d00ffff⟩] { nTime := 1800 }
        ⟨false, 600, 2, (SetCompact 0x1effffff).target⟩
      = some (GetCompact (UintToArith256 (SetCompact 0x1effffff).target), []) :=
  ⟨by decide, GetNextWorkRequired_bypassB [⟨0, 0x1d00ffff⟩, ⟨600, 0x1d00ffff⟩, ⟨1200, 0x1d00ffff⟩]
    { nTime := 1800 } ⟨false, 600, 2, (SetCompact 0x1effffff).target⟩ (by decide) (by decide)⟩

/-! ## Retarget engine: facts -/

theorem GetAncestor_eq (chain : Chain) (fromHeight height : Int)
    (h0 : 0 ≤ height) (h1 : height ≤ fromHeight) :
    GetAncestor chain fromHeight height = chain[height.toNat]? := by
  unfold GetAncestor
  rw [if_neg (by omega)]

theorem lwmaBody_eq (chain : Chain) (T k N i : Int) (s : LwmaState)
    (hi : 1 ≤ i) (hih : i ≤ nHeight chain) (hd : ofInt64 (k * N) ≠ 0) :
    lwmaBody chain (nHeight chain) T k N i s = some
      { t := s.t + clampSolvetime T (timeAt chain i - timeAt chain (i - 1)) * (s.j + 1)
        j := s.j + 1
        sum_target := (s.sum_target + targetAt chain i / ofInt64 (k * N)) % 2 ^ 256
        reads := s.reads ++ [i, i - 1] } := by
  unfold nHeight at hih
  have h1 : i.toNat < chain.length := by omega
  have h2 : (i - 1).toNat < chain.length := by omega
  unfold lwmaBody
  rw [GetAncestor_eq chain _ i (by omega) (by unfold nHeight; omega),
    GetAncestor_eq chain _ (i - 1) (by omega) (by omega)]
  unfold timeAt targetAt bitsAt
  rw [List.getElem?_eq_getElem h1, List.getElem?_eq_getElem h2]
  simp only [hd, if_false]

theorem lwmaLoop_eq (chain : Chain) (T k N : Int) (hd : ofInt64 (k * N) ≠ 0) :
    ∀ (n : Nat) (i : Int) (s : LwmaState), 1 ≤ i → i + n ≤ nHeight chain + 1 →
      s.sum_target < 2 ^ 256 →
      lwmaLoop chain (nHeight chain) T k N n i s = some
        { t := s.t + ∑ m in Finset.range n,
            clampSolvetime T (timeAt chain (i + m) - timeAt chain (i + m - 1)) * (s.j + 1 + m)
          j := s.j + n
          sum_target :=
            (s.sum_target + ∑ m in Finset.range n, targetAt chain (i + m) / ofInt64 (k * N))
              % 2 ^ 256
          reads := s.reads ++ lwmaReads n i } := by
  intro n
  induction n with
  | zero =>
    intro i s _ _ hs
    cases s
    simp only [lwmaLoop, lwmaReads, Finset.range_zero, Finset.sum_empty, add_zero,
      Nat.cast_zero, List.append_nil, Nat.mod_eq_of_lt hs]
  | succ n ih =>
    intro i s hi hin hs
    have hin2 : i + 1 + (n : Int) ≤ nHeight chain + 1 := by push_cast at hin; omega
    have e1 : ∀ m : Int, i + 1 + m = i + (m + 1) := fun m => by ring
    have e2 : ∀ m : Int, s.j + 1 + 1 + m = s.j + 1 + (m + 1) := fun m => by ring
    rw [lwmaLoop, lwmaBody_eq chain T k N i s hi (by push_cast at hin; omega) hd]
    simp only
    rw [ih (i + 1) _ (by omega) hin2 (Nat.mod_lt _ (by norm_num))]
    simp only [Finset.sum_range_succ', lwmaReads, Nat.cast_zero, add_zero, Nat.cast_add,
      Nat.cast_one, List.append_assoc, List.cons_append, List.nil_append, Nat.mod_add_mod,
      e1, e2]
    refine congrArg some ?_
    rw [LwmaState.mk.injEq]
    refine ⟨by ring, by ring, ?_, rfl⟩
    congr 1
    ring

theorem ofInt64_eq_toNat (x : Int) (h0 : 0 ≤ x) (h1 : x < 2 ^ 64) : ofInt64 x = x.toNat := by
  unfold ofInt64
  rw [Int.emod_eq_of_lt h0 h1]

theorem lwmaK_mul_two (N T : Int) (hN : 1 ≤ N) (hT : 1 ≤ T) :
    lwmaK N T * 2 = N * (N + 1) * T := by
  have hnn : 0 ≤ N * (N + 1) * T := by positivity
  unfold lwmaK
  rw [Int.tdiv_eq_ediv hnn (by norm_num)]
  apply Int.ediv_mul_cancel
  exact Dvd.dvd.mul_right (Int.even_mul_succ_self N).two_dvd T

theorem lwmaK_eq_ediv (N T : Int) (hN : 1 ≤ N) (hT : 1 ≤ T) :
    lwmaK N T = N * (N + 1) * T / 2 := by
  have hnn : 0 ≤ N * (N + 1) * T := by positivity
  unfold lwmaK
  rw [Int.tdiv_eq_ediv hnn (by norm_num)]

theorem lwmaK_pos (N T : Int) (hN : 1 ≤ N) (hT : 1 ≤ T) : 1 ≤ lwmaK N T := by
  have h2 := lwmaK_mul_two N T hN hT
  have h3 : 2 ≤ N * (N + 1) * T := by nlinarith [mul_nonneg (sub_nonneg.2 hN) (sub_nonneg.2 hT)]
  omega

theorem lwmaK_mul_N_pos (N T : Int) (hN : 1 ≤ N) (hT : 1 ≤ T) : N ≤ lwmaK N T * N := by
  have := lwmaK_pos N T hN hT
  nlinarith

theorem ofInt64_divisor (N T : Int) (hN : 1 ≤ N) (hT : 1 ≤ T) (hfit : NoInt64Overflow N T) :
    ofInt64 (lwmaK N T * N) = (lwmaK N T * N).toNat := by
  have h1 := lwmaK_mul_N_pos N T hN hT
  have h2 := hfit.1
  exact ofInt64_eq_toNat _ (by omega) (by omega)

theorem sum_weights (n : Nat) : 2 * ∑ m in Finset.range n, ((m : Int) + 1) = n * (n + 1) := by
  induction n with
  | zero => simp
  | succ n ih =>
    rw [Finset.sum_range_succ, mul_add, ih]
    push_cast
    ring

theorem clampSolvetime_le (T s : Int) (hT : 0 ≤ T) : clampSolvetime T s ≤ 6 * T := by
  unfold clampSolvetime
  exact max_le (by omega) (min_le_right _ _)

theorem clampSolvetime_ge (T s : Int) : -6 * T ≤ clampSolvetime T s := by
  unfold clampSolvetime
  exact le_max_left _ _

theorem targetAt_lt (chain : Chain) (h : Int) : targetAt chain h < 2 ^ 256 := by
  unfold targetAt SetCompact
  exact Nat.mod_lt _ (by norm_num)

theorem sum_Icc_one_eq_range {M : Type} [AddCommMonoid M] (f : Nat → M) (n : Nat) :
    ∑ j in Finset.Icc 1 n, f j = ∑ m in Finset.range n, f (m + 1) := by
  rw [← Nat.Ico_succ_right, Finset.sum_Ico_eq_sum_range]
  simp only [Nat.succ_eq_add_one, Nat.add_sub_cancel]
  exact Finset.sum_congr rfl (fun m _ => by rw [add_comm])

theorem specWeightedTime_eq_range (chain : Chain) (N T : Int) :
    specWeightedTime chain N T = ∑ m in Finset.range N.toNat,
      clampSolvetime T (timeAt chain (nHeight chain - N + 1 + m)
        - timeAt chain (nHeight chain - N + 1 + m - 1)) * (0 + 1 + m) := by
  unfold specWeightedTime
  rw [sum_Icc_one_eq_range]
  apply Finset.sum_congr rfl
  intro m _
  have e1 : nHeight chain - N + ((m + 1 : Nat) : Int) = nHeight chain - N + 1 + m := by
    push_cast; ring
  rw [e1]
  push_cast
  ring

theorem specSumTarget_eq_range (chain : Chain) (N T : Int) (hN : 1 ≤ N) (hT : 1 ≤ T) :
    specSumTarget chain N T = ∑ m in Finset.range N.toNat,
      targetAt chain (nHeight chain - N + 1 + m) / (lwmaK N T * N).toNat := by
  unfold specSumTarget
  rw [sum_Icc_one_eq_range, ← lwmaK_eq_ediv N T hN hT]
  apply Finset.sum_congr rfl
  intro m _
  have e1 : nHeight chain - N + ((m + 1 : Nat) : Int) = nHeight chain - N + 1 + m := by
    push_cast; ring
  rw [e1]

theorem specWeightedTime_le (chain : Chain) (N T : Int) (hN : 1 ≤ N) (hT : 1 ≤ T) :
    specWeightedTime chain N T ≤ 6 * lwmaK N T := by
  rw [specWeightedTime_eq_range chain N T]
  have hb : ∀ m ∈ Finset.range N.toNat,
      clampSolvetime T (timeAt chain (nHeight chain - N + 1 + m)
        - timeAt chain (nHeight chain - N + 1 + m - 1)) * (0 + 1 + (m : Int))
        ≤ 6 * T * ((m : Int) + 1) := by
    intro m _
    rw [zero_add, add_comm (1 : Int)]
    exact mul_le_mul_of_nonneg_right (clampSolvetime_le T _ (by omega)) (by positivity)
  have h1 := Finset.sum_le_sum hb
  rw [← Finset.mul_sum] at h1
  have h2 := sum_weights N.toNat
  have h3 := lwmaK_mul_two N T hN hT
  have h4 : ((N.toNat : Nat) : Int) = N := Int.toNat_of_nonneg (by omega)
  rw [h4] at h2
  nlinarith

theorem specWeightedTime_ge (chain : Chain) (N T : Int) (hN : 1 ≤ N) (hT : 1 ≤ T) :
    -6 * lwmaK N T ≤ specWeightedTime chain N T := by
  rw [specWeightedTime_eq_range chain N T]
  have hb : ∀ m ∈ Finset.range N.toNat,
      -6 * T * ((m : Int) + 1) ≤
      clampSolvetime T (timeAt chain (nHeight chain - N + 1 + m)
        - timeAt chain (nHeight chain - N + 1 + m - 1)) * (0 + 1 + (m : Int)) := by
    intro m _
    rw [zero_add, add_comm (1 : Int)]
    exact mul_le_mul_of_nonneg_right (clampSolvetime_ge T _) (by positivity)
  have h1 := Finset.sum_le_sum hb
  rw [← Finset.mul_sum] at h1
  have h2 := sum_weights N.toNat
  have h3 := lwmaK_mul_two N T hN hT
  have h4 : ((N.toNat : Nat) : Int) = N := Int.toNat_of_nonneg (by omega)
  rw [h4] at h2
  nlinarith

theorem specSumTarget_lt (chain : Chain) (N T : Int) (hN : 1 ≤ N) (hT : 1 ≤ T) :
    specSumTarget chain N T < 2 ^ 256 := by
  rw [specSumTarget_eq_range chain N T hN hT]
  have hd := lwmaK_mul_N_pos N T hN hT
  have hb : ∀ m ∈ Finset.range N.toNat,
      targetAt chain (nHeight chain - N + 1 + m) / (lwmaK N T * N).toNat
        ≤ (2 ^ 256 - 1) / (lwmaK N T * N).toNat := by
    intro m _
    have := targetAt_lt chain (nHeight chain - N + 1 + m)
    exact Nat.div_le_div_right (by omega)
  have h1 := Finset.sum_le_sum hb
  rw [Finset.sum_const, Finset.card_range, smul_eq_mul] at h1
  have h2 : N.toNat ≤ (lwmaK N T * N).toNat := by omega
  have h3 : N.toNat * ((2 ^ 256 - 1) / (lwmaK N T * N).toNat) ≤ 2 ^ 256 - 1 :=
    le_trans (Nat.mul_le_mul_right _ h2) (Nat.mul_div_le _ _)
  have h4 : (2 : Nat) ^ 256 - 1 < 2 ^ 256 := by norm_num
  omega

theorem lwmaAccumulate_eq (pindexLast : Chain) (params : Params)
    (hN : 1 ≤ params.nZawyLwmaAveragingWindow) (hT : 1 ≤ params.nPowTargetSpacing)
    (hh : params.nZawyLwmaAveragingWindow < nHeight pindexLast)
    (hfit : NoInt64Overflow params.nZawyLwmaAveragingWindow params.nPowTargetSpacing) :
    lwmaAccumulate pindexLast params = some
      { t := specWeightedTime pindexLast params.nZawyLwmaAveragingWindow params.nPowTargetSpacing
        j := params.nZawyLwmaAveragingWindow
        sum_target :=
          specSumTarget pindexLast params.nZawyLwmaAveragingWindow params.nPowTargetSpacing
        reads := lwmaReads params.nZawyLwmaAveragingWindow.toNat
          (nHeight pindexLast - params.nZawyLwmaAveragingWindow + 1) } := by
  have hd := lwmaK_mul_N_pos _ _ hN hT
  have hdiv := ofInt64_divisor _ _ hN hT hfit
  have hd0 : ofInt64 (lwmaK params.nZawyLwmaAveragingWindow params.nPowTargetSpacing
      * params.nZawyLwmaAveragingWindow) ≠ 0 := by
    rw [hdiv]; omega
  have hcount : (nHeight pindexLast - (nHeight pindexLast - params.nZawyLwmaAveragingWindow + 1)
      + 1).toNat = params.nZawyLwmaAveragingWindow.toNat := by
    congr 1; ring
  have hS := specSumTarget_lt pindexLast _ _ hN hT
  unfold lwmaAccumulate
  simp only [gt_iff_lt, hh, if_true, hcount]
  rw [lwmaLoop_eq pindexLast _ _ _ hd0 _ _ _ (by omega) (by omega) (by norm_num)]
  refine congrArg some ?_
  rw [LwmaState.mk.injEq]
  refine ⟨?_, ?_, ?_, ?_⟩
  · rw [specWeightedTime_eq_range pindexLast _ _]
    simp only [zero_add]
  · simp only [zero_add]
    exact Int.toNat_of_nonneg (by omega)
  · rw [hdiv, zero_add, ← specSumTarget_eq_range pindexLast _ _ hN hT]
    exact Nat.mod_eq_of_lt hS
  · simp only [List.nil_append]

theorem LwmaCalculateNextWorkRequired_eq (pindexLast : Chain) (params : Params)
    (hN : 1 ≤ params.nZawyLwmaAveragingWindow) (hT : 1 ≤ params.nPowTargetSpacing)
    (hh : params.nZawyLwmaAveragingWindow < nHeight pindexLast)
    (hfit : NoInt64Overflow params.nZawyLwmaAveragingWindow params.nPowTargetSpacing) :
    LwmaCalculateNextWorkRequired pindexLast params = some
      (specNextTarget pindexLast params.nZawyLwmaAveragingWindow params.nPowTargetSpacing,
        lwmaReads params.nZawyLwmaAveragingWindow.toNat
          (nHeight pindexLast - params.nZawyLwmaAveragingWindow + 1)) := by
  have hk := lwmaK_pos _ _ hN hT
  have hke := lwmaK_eq_ediv _ _ hN hT
  have hle := specWeightedTime_le pindexLast _ _ hN hT
  have h6 := hfit.2
  unfold LwmaCalculateNextWorkRequired specNextTarget lwmaFloor
  rw [lwmaAccumulate_eq pindexLast params hN hT hh hfit]
  simp only
  rw [Int.tdiv_eq_ediv (by omega) (by norm_num), hke]
  rw [hke] at hk hle h6
  generalize specWeightedTime pindexLast params.nZawyLwmaAveragingWindow
    params.nPowTargetSpacing = t at hle ⊢
  generalize specSumTarget pindexLast params.nZawyLwmaAveragingWindow
    params.nPowTargetSpacing = S
  generalize params.nZawyLwmaAveragingWindow * (params.nZawyLwmaAveragingWindow + 1)
    * params.nPowTargetSpacing / 2 = k at hk hle h6 ⊢
  have hmax : (if t < k / 10 then k / 10 else t) = max t (k / 10) := by
    rw [max_def]
    split_ifs <;> omega
  rw [hmax]
  have h0 : 0 ≤ max t (k / 10) := le_trans (by omega) (le_max_right _ _)
  have h1 : max t (k / 10) < 2 ^ 64 := by
    have : max t (k / 10) ≤ 6 * k := max_le hle (by omega)
    omega
  rw [ofInt64_eq_toNat _ h0 h1]
  congr 2
  obtain ⟨a, ha⟩ := Int.eq_ofNat_of_zero_le h0
  rw [ha]
  simp only [Int.toNat_ofNat]
  norm_cast

theorem GetNextWorkRequired_eq_of_no_bypass (pindexLast : Chain) (tip : CBlockIndex)
    (pblock : CBlockHeader) (params : Params)
    (htip : pindexLast.getLast? = some tip)
    (hh : params.nZawyLwmaAveragingWindow < nHeight pindexLast)
    (hA : ¬ (params.fPowAllowMinDifficultyBlocks = true ∧
      pblock.GetBlockTime > tip.GetBlockTime + 2 * params.nPowTargetSpacing)) :
    GetNextWorkRequired pindexLast pblock params
      = LwmaCalculateNextWorkRequired pindexLast params := by
  have hA2 : (params.fPowAllowMinDifficultyBlocks
      && decide (pblock.GetBlockTime > tip.GetBlockTime + params.nPowTargetSpacing * 2))
      = false := by
    rw [mul_comm] at hA
    simpa using hA
  unfold GetNextWorkRequired LwmaGetNextWorkRequired
  rw [htip]
  simp only [hA2, Bool.false_eq_true, if_false, not_le.2 hh]

/-- C1: for a chain whose tip height `h` exceeds `N = averagingWindow` (`N ≥ 1`,
`T = targetSpacing ≥ 1`, intermediate values within `int64_t`) and for which
Bypass A does not apply, `GetNextWorkRequired` returns
`encode(t' * S mod 2^256)` with `k = N*(N+1)*T/2`,
`t = sum_{j=1..N} j * clamp(time[h-N+j] - time[h-N+j-1], -6T, 6T)`,
`t' = max(t, k/10)` and `S = sum_{j=1..N} floor(decode(bits[h-N+j]) / (k*N))`. -/
theorem GetNextWorkRequired_eq_specNextTarget (pindexLast : Chain) (tip : CBlockIndex)
    (pblock : CBlockHeader) (params : Params)
    (htip : pindexLast.getLast? = some tip)
    (hN : 1 ≤ params.nZawyLwmaAveragingWindow) (hT : 1 ≤ params.nPowTargetSpacing)
    (hh : params.nZawyLwmaAveragingWindow < nHeight pindexLast)
    (hA : ¬ (params.fPowAllowMinDifficultyBlocks = true ∧
      pblock.GetBlockTime > tip.GetBlockTime + 2 * params.nPowTargetSpacing))
    (hfit : NoInt64Overflow params.nZawyLwmaAveragingWindow params.nPowTargetSpacing) :
    (GetNextWorkRequired pindexLast pblock params).map Prod.fst = some
      (GetCompact
        ((max (∑ j in Finset.Icc 1 params.nZawyLwmaAveragingWindow.toNat,
                (j : Int) * clampSolvetime params.nPowTargetSpacing
                  (timeAt pindexLast (nHeight pindexLast - params.nZawyLwmaAveragingWindow + j)
                    - timeAt pindexLast
                        (nHeight pindexLast - params.nZawyLwmaAveragingWindow + j - 1)))
              (params.nZawyLwmaAveragingWindow * (params.nZawyLwmaAveragingWindow + 1)
                * params.nPowTargetSpacing / 2 / 10)
            * ((∑ j in Finset.Icc 1 params.nZawyLwmaAveragingWindow.toNat,
                targetAt pindexLast (nHeight pindexLast - params.nZawyLwmaAveragingWindow + j)
                  / (params.nZawyLwmaAveragingWindow * (params.nZawyLwmaAveragingWindow + 1)
                      * params.nPowTargetSpacing / 2
                      * params.nZawyLwmaAveragingWindow).toNat : Nat) : Int))
          % 2 ^ 256).toNat) := by
  rw [GetNextWorkRequired_eq_of_no_bypass pindexLast tip pblock params htip hh hA,
    LwmaCalculateNextWorkRequired_eq pindexLast params hN hT hh hfit]
  rfl

/-- Witness for C1: the 47-block steady chain with window 45 and spacing 600. -/
theorem GetNextWorkRequired_eq_specNextTarget_witness :
    (GetNextWorkRequired steadyChain { nTime := 28200 } steadyParams).map Prod.fst
      = some (specNextTarget steadyChain 45 600) :=
  GetNextWorkRequired_eq_specNextTarget steadyChain ⟨27600, 0x1d00ffff⟩ { nTime := 28200 } steadyParams
    (by decide) (by decide) (by decide) (by decide) (by decide) (by decide)

/-! ## End-to-end scenario -/

theorem specWeightedTime_steady (chain : Chain) (N T : Int) (hT : 0 ≤ T)
    (hs : ∀ j : Nat, 1 ≤ j → j ≤ N.toNat → solvetimeAt chain N j = T) :
    2 * specWeightedTime chain N T = T * (N.toNat * (N.toNat + 1)) := by
  have hc : clampSolvetime T T = T := by
    unfold clampSolvetime
    rw [min_eq_left (by omega), max_eq_right (by omega)]
  have e : specWeightedTime chain N T = ∑ m in Finset.range N.toNat, T * ((m : Int) + 1) := by
    unfold specWeightedTime
    rw [sum_Icc_one_eq_range]
    apply Finset.sum_congr rfl
    intro m hm
    have := hs (m + 1) (by omega) (by have := Finset.mem_range.1 hm; omega)
    unfold solvetimeAt at this
    rw [this, hc]
    push_cast
    ring
  rw [e, ← Finset.mul_sum, mul_left_comm, sum_weights]

theorem specSumTarget_steady (chain : Chain) (N T : Int) (nBits : Nat)
    (hb : ∀ j : Nat, 1 ≤ j → j ≤ N.toNat → bitsAt chain (nHeight chain - N + j) = nBits) :
    specSumTarget chain N T
      = N.toNat * ((SetCompact nBits).target / (N * (N + 1) * T / 2 * N).toNat) := by
  unfold specSumTarget
  have e : ∀ j ∈ Finset.Icc 1 N.toNat,
      targetAt chain (nHeight chain - N + j) / (N * (N + 1) * T / 2 * N).toNat
        = (SetCompact nBits).target / (N * (N + 1) * T / 2 * N).toNat := by
    intro j hj
    have hj2 := Finset.mem_Icc.1 hj
    unfold targetAt
    rw [hb j hj2.1 hj2.2]
  rw [Finset.sum_congr rfl e, Finset.sum_const, Nat.card_Icc, smul_eq_mul]
  simp

set_option maxRecDepth 100000 in
/-- C6 (as amended): with powLimit = 0x1effffff (compact), averagingWindow = 45,
targetSpacing = 600, a tip of height above 45 with Bypass A not taken, and a
window of 45 pairs each with solvetime 600 and compact target 0x1d00ffff,
`GetNextWorkRequired` returns 0x1d00fffe. -/
theorem GetNextWorkRequired_steady_scenario (pindexLast : Chain) (tip : CBlockIndex)
    (pblock : CBlockHeader) (allowMin : Bool)
    (htip : pindexLast.getLast? = some tip)
    (hh : 45 < nHeight pindexLast)
    (hA : ¬ (allowMin = true ∧ pblock.GetBlockTime > tip.GetBlockTime + 2 * 600))
    (hwin : ∀ j : Nat, 1 ≤ j → j ≤ 45 →
      solvetimeAt pindexLast 45 j = 600 ∧
      bitsAt pindexLast (nHeight pindexLast - 45 + j) = 0x1d00ffff) :
    (GetNextWorkRequired pindexLast pblock
        ⟨allowMin, 600, 45, (SetCompact 0x1effffff).target⟩).map Prod.fst
      = some 0x1d00fffe := by
  have h1 := specWeightedTime_steady pindexLast 45 600 (by norm_num)
    (fun j hj1 hj2 => (hwin j hj1 (by simpa using hj2)).1)
  have h2 := specSumTarget_steady pindexLast 45 600 0x1d00ffff
    (fun j hj1 hj2 => (hwin j hj1 (by simpa using hj2)).2)
  have ht : specWeightedTime pindexLast 45 600 = 621000 := by
    have e : ((45 : Int).toNat : Int) = 45 := by decide
    rw [e] at h1
    omega
  rw [GetNextWorkRequired_eq_of_no_bypass pindexLast tip pblock _ htip hh hA,
    LwmaCalculateNextWorkRequired_eq pindexLast _ (show (1 : Int) ≤ 45 by decide)
      (show (1 : Int) ≤ 600 by decide) hh (show NoInt64Overflow 45 600 by decide)]
  simp only [Option.map_some', Option.some.injEq]
  unfold specNextTarget
  rw [ht, h2]
  decide

set_option maxRecDepth 100000 in
/-- Witness for C6 (as amended): the 47-block steady chain. -/
theorem GetNextWorkRequired_steady_scenario_witness :
    (45 < nHeight steadyChain ∧
      ∀ j : Nat, 1 ≤ j → j ≤ 45 →
        solvetimeAt steadyChain 45 j = 600 ∧
        bitsAt steadyChain (nHeight steadyChain - 45 + j) = 0x1d00ffff) ∧
    (GetNextWorkRequired steadyChain { nTime := 28200 }
        ⟨false, 600, 45, (SetCompact 0x1effffff).target⟩).map Prod.fst = some 0x1d00fffe :=
  ⟨⟨by decide, by decide⟩,
    GetNextWorkRequired_steady_scenario steadyChain ⟨27600, 0x1d00ffff⟩ { nTime := 28200 } false
      (by decide) (by decide) (by decide) (by decide)⟩

set_option maxRecDepth 100000 in
/-- C6, counterexample: on the 47-block steady chain of the scenario the value
returned is 0x1d00fffe, which differs from encode(decode(0x1d00ffff)) = 0x1d00ffff. -/
theorem GetNextWorkRequired_steady_scenario_counterexample :
    GetCompact (SetCompact 0x1d00ffff).target = 0x1d00ffff ∧
    (GetNextWorkRequired steadyChain { nTime := 28200 } steadyParams).map Prod.fst = some 0x1d00fffe ∧
    (GetNextWorkRequired steadyChain { nTime := 28200 } steadyParams).map Prod.fst
      ≠ some (GetCompact (SetCompact 0x1d00ffff).target) := by
  decide

/-! ## Clamping and weighting -/

theorem clampSolvetime_idem (T s : Int) (hT : 0 ≤ T) :
    clampSolvetime T (clampSolvetime T s) = clampSolvetime T s := by
  have h1 := clampSolvetime_le T s hT
  have h2 := clampSolvetime_ge T s
  generalize clampSolvetime T s = c at h1 h2
  unfold clampSolvetime
  rw [min_eq_left h1, max_eq_right h2]

theorem clampSolvetime_hi (T s : Int) (hT : 0 ≤ T) (hs : 6 * T ≤ s) :
    clampSolvetime T s = 6 * T := by
  unfold clampSolvetime
  rw [min_eq_right hs, max_eq_right (by omega)]

theorem clampSolvetime_lo (T s : Int) (hT : 0 ≤ T) (hs : s ≤ -6 * T) :
    clampSolvetime T s = -6 * T := by
  unfold clampSolvetime
  rw [min_eq_left (by omega), max_eq_left hs]

theorem clampSolvetime_mid (T s : Int) (h1 : -6 * T ≤ s) (h2 : s ≤ 6 * T) :
    clampSolvetime T s = s := by
  unfold clampSolvetime
  rw [min_eq_left h2, max_eq_right h1]

theorem specWeightedTime_eq_solvetimeAt (chain : Chain) (N T : Int) :
    specWeightedTime chain N T
      = ∑ j in Finset.Icc 1 N.toNat, (j : Int) * clampSolvetime T (solvetimeAt chain N j) :=
  rfl

theorem nHeight_congr (c1 c2 : Chain) (hlen : c2.length = c1.length) :
    nHeight c2 = nHeight c1 := by
  unfold nHeight
  rw [hlen]

/-- C7: a raw solvetime of `100*T` met by the loop body at position `j` adds
exactly `j*6*T` to the weighted sum `t`, a raw solvetime of `-100*T` adds exactly
`-j*6*T`, and the result of `LwmaCalculateNextWorkRequired` is unchanged when
raw solvetimes of the window are replaced by their clamp to `[-6T, 6T]`. -/
theorem LwmaCalculateNextWorkRequired_clamp (c1 c2 : Chain) (params : Params)
    (hN : 1 ≤ params.nZawyLwmaAveragingWindow) (hT : 1 ≤ params.nPowTargetSpacing)
    (hh : params.nZawyLwmaAveragingWindow < nHeight c1)
    (hfit : NoInt64Overflow params.nZawyLwmaAveragingWindow params.nPowTargetSpacing)
    (hlen : c2.length = c1.length)
    (hbits : ∀ j : Nat, 1 ≤ j → j ≤ params.nZawyLwmaAveragingWindow.toNat →
      bitsAt c2 (nHeight c1 - params.nZawyLwmaAveragingWindow + j)
        = bitsAt c1 (nHeight c1 - params.nZawyLwmaAveragingWindow + j))
    (hsolve : ∀ j : Nat, 1 ≤ j → j ≤ params.nZawyLwmaAveragingWindow.toNat →
      solvetimeAt c2 params.nZawyLwmaAveragingWindow j
          = solvetimeAt c1 params.nZawyLwmaAveragingWindow j ∨
      solvetimeAt c2 params.nZawyLwmaAveragingWindow j
          = clampSolvetime params.nPowTargetSpacing
              (solvetimeAt c1 params.nZawyLwmaAveragingWindow j)) :
    (∀ (s : LwmaState) (i : Int), 1 ≤ i → i ≤ nHeight c1 →
      (timeAt c1 i - timeAt c1 (i - 1) = 100 * params.nPowTargetSpacing →
        ∃ s', lwmaBody c1 (nHeight c1) params.nPowTargetSpacing
            (lwmaK params.nZawyLwmaAveragingWindow params.nPowTargetSpacing)
            params.nZawyLwmaAveragingWindow i s = some s' ∧
          s'.j = s.j + 1 ∧ s'.t = s.t + s'.j * 6 * params.nPowTargetSpacing) ∧
      (timeAt c1 i - timeAt c1 (i - 1) = -100 * params.nPowTargetSpacing →
        ∃ s', lwmaBody c1 (nHeight c1) params.nPowTargetSpacing
            (lwmaK params.nZawyLwmaAveragingWindow params.nPowTargetSpacing)
            params.nZawyLwmaAveragingWindow i s = some s' ∧
          s'.j = s.j + 1 ∧ s'.t = s.t + -s'.j * 6 * params.nPowTargetSpacing))
    ∧ LwmaCalculateNextWorkRequired c2 params = LwmaCalculateNextWorkRequired c1 params
    ∧ (LwmaCalculateNextWorkRequired c1 params).isSome = true := by
  have hd := lwmaK_mul_N_pos _ _ hN hT
  have hd0 : ofInt64 (lwmaK params.nZawyLwmaAveragingWindow params.nPowTargetSpacing
      * params.nZawyLwmaAveragingWindow) ≠ 0 := by
    rw [ofInt64_divisor _ _ hN hT hfit]; omega
  have hh2 : nHeight c2 = nHeight c1 := nHeight_congr c1 c2 hlen
  refine ⟨?_, ?_, ?_⟩
  · intro s i hi hih
    refine ⟨?_, ?_⟩
    · intro hs
      refine ⟨_, lwmaBody_eq c1 _ _ _ i s hi hih hd0, rfl, ?_⟩
      simp only
      rw [hs, clampSolvetime_hi _ _ (by omega) (by omega)]
      ring
    · intro hs
      refine ⟨_, lwmaBody_eq c1 _ _ _ i s hi hih hd0, rfl, ?_⟩
      simp only
      rw [hs, clampSolvetime_lo _ _ (by omega) (by omega)]
      ring
  · rw [LwmaCalculateNextWorkRequired_eq c1 params hN hT hh hfit,
      LwmaCalculateNextWorkRequired_eq c2 params hN hT (by rw [hh2]; exact hh) hfit, hh2]
    have et : specWeightedTime c2 params.nZawyLwmaAveragingWindow params.nPowTargetSpacing
        = specWeightedTime c1 params.nZawyLwmaAveragingWindow params.nPowTargetSpacing := by
      rw [specWeightedTime_eq_solvetimeAt, specWeightedTime_eq_solvetimeAt]
      apply Finset.sum_congr rfl
      intro j hj
      have hj2 := Finset.mem_Icc.1 hj
      rcases hsolve j hj2.1 hj2.2 with h | h
      · rw [h]
      · rw [h, clampSolvetime_idem _ _ (by omega)]
    have eS : specSumTarget c2 params.nZawyLwmaAveragingWindow params.nPowTargetSpacing
        = specSumTarget c1 params.nZawyLwmaAveragingWindow params.nPowTargetSpacing := by
      unfold specSumTarget
      apply Finset.sum_congr rfl
      intro j hj
      have hj2 := Finset.mem_Icc.1 hj
      unfold targetAt
      rw [hh2, hbits j hj2.1 hj2.2]
    unfold specNextTarget
    rw [et, eS]
  · rw [LwmaCalculateNextWorkRequired_eq c1 params hN hT hh hfit]
    rfl

/-- Witness for C7: window 2, spacing 10; the raw solvetime 1000 = 100*T of the
first chain is replaced by its clamp 60 in the second. -/
theorem LwmaCalculateNextWorkRequired_clamp_witness :
    (solvetimeAt (chainOfTimes [0, 10, 1010, 1020]) 2 1 = 100 * 10 ∧
      solvetimeAt (chainOfTimes [0, 10, 70, 80]) 2 1 = 60) ∧
    ((∀ (s : LwmaState) (i : Int), 1 ≤ i → i ≤ nHeight (chainOfTimes [0, 10, 1010, 1020]) →
      (timeAt (chainOfTimes [0, 10, 1010, 1020]) i
          - timeAt (chainOfTimes [0, 10, 1010, 1020]) (i - 1)
          = 100 * smallParams.nPowTargetSpacing →
        ∃ s', lwmaBody (chainOfTimes [0, 10, 1010, 1020])
            (nHeight (chainOfTimes [0, 10, 1010, 1020])) smallParams.nPowTargetSpacing
            (lwmaK smallParams.nZawyLwmaAveragingWindow smallParams.nPowTargetSpacing)
            smallParams.nZawyLwmaAveragingWindow i s = some s' ∧
          s'.j = s.j + 1 ∧ s'.t = s.t + s'.j * 6 * smallParams.nPowTargetSpacing) ∧
      (timeAt (chainOfTimes [0, 10, 1010, 1020]) i
          - timeAt (chainOfTimes [0, 10, 1010, 1020]) (i - 1)
          = -100 * smallParams.nPowTargetSpacing →
        ∃ s', lwmaBody (chainOfTimes [0, 10, 1010, 1020])
            (nHeight (chainOfTimes [0, 10, 1010, 1020])) smallParams.nPowTargetSpacing
            (lwmaK smallParams.nZawyLwmaAveragingWindow smallParams.nPowTargetSpacing)
            smallParams.nZawyLwmaAveragingWindow i s = some s' ∧
          s'.j = s.j + 1 ∧ s'.t = s.t + -s'.j * 6 * smallParams.nPowTargetSpacing))
    ∧ LwmaCalculateNextWorkRequired (chainOfTimes [0, 10, 70, 80]) smallParams
        = LwmaCalculateNextWorkRequired (chainOfTimes [0, 10, 1010, 1020]) smallParams
    ∧ (LwmaCalculateNextWorkRequired (chainOfTimes [0, 10, 1010, 1020]) smallParams).isSome
        = true) :=
  ⟨⟨by decide, by decide⟩,
    LwmaCalculateNextWorkRequired_clamp (chainOfTimes [0, 10, 1010, 1020])
      (chainOfTimes [0, 10, 70, 80]) smallParams (by decide) (by decide) (by decide)
      (by decide) (by decide) (by decide) (by decide)⟩

theorem specWeightedTime_split_last (chain : Chain) (N T : Int) (hN : 1 ≤ N) :
    specWeightedTime chain N T
      = ∑ j in Finset.Icc 1 (N.toNat - 1), (j : Int) * clampSolvetime T (solvetimeAt chain N j)
        + N * clampSolvetime T (solvetimeAt chain N N.toNat) := by
  obtain ⟨n, hn⟩ : ∃ n, N.toNat = n + 1 := ⟨N.toNat - 1, by omega⟩
  have hc : ((n + 1 : Nat) : Int) = N := by rw [← hn]; exact Int.toNat_of_nonneg (by omega)
  rw [specWeightedTime_eq_solvetimeAt, hn, Nat.add_sub_cancel, sum_Icc_one_eq_range,
    sum_Icc_one_eq_range, Finset.sum_range_succ, hc]

/-- C8 (as amended): for two windows identical except that the most recent
solvetime `s` (pair `j = N`) of the second is `2*s`, with `0 < s < 6T`, the
weighted time `t` accumulated by the loop of `LwmaCalculateNextWorkRequired`
is strictly larger for the second window. -/
theorem lwmaAccumulate_doubling_last (c1 c2 : Chain) (params : Params)
    (hN : 1 ≤ params.nZawyLwmaAveragingWindow) (hT : 1 ≤ params.nPowTargetSpacing)
    (hh1 : params.nZawyLwmaAveragingWindow < nHeight c1)
    (hh2 : params.nZawyLwmaAveragingWindow < nHeight c2)
    (hfit : NoInt64Overflow params.nZawyLwmaAveragingWindow params.nPowTargetSpacing)
    (hsame : ∀ j : Nat, 1 ≤ j → j < params.nZawyLwmaAveragingWindow.toNat →
      solvetimeAt c2 params.nZawyLwmaAveragingWindow j
        = solvetimeAt c1 params.nZawyLwmaAveragingWindow j)
    (hdouble : solvetimeAt c2 params.nZawyLwmaAveragingWindow
        params.nZawyLwmaAveragingWindow.toNat
      = 2 * solvetimeAt c1 params.nZawyLwmaAveragingWindow
        params.nZawyLwmaAveragingWindow.toNat)
    (hpos : 0 < solvetimeAt c1 params.nZawyLwmaAveragingWindow
      params.nZawyLwmaAveragingWindow.toNat)
    (hlt : solvetimeAt c1 params.nZawyLwmaAveragingWindow
      params.nZawyLwmaAveragingWindow.toNat < 6 * params.nPowTargetSpacing) :
    ∃ s1 s2, lwmaAccumulate c1 params = some s1 ∧ lwmaAccumulate c2 params = some s2 ∧
      s1.t < s2.t := by
  refine ⟨_, _, lwmaAccumulate_eq c1 params hN hT hh1 hfit,
    lwmaAccumulate_eq c2 params hN hT hh2 hfit, ?_⟩
  simp only
  rw [specWeightedTime_split_last c1 _ _ hN, specWeightedTime_split_last c2 _ _ hN]
  have e : ∑ j in Finset.Icc 1 (params.nZawyLwmaAveragingWindow.toNat - 1),
        (j : Int) * clampSolvetime params.nPowTargetSpacing
          (solvetimeAt c2 params.nZawyLwmaAveragingWindow j)
      = ∑ j in Finset.Icc 1 (params.nZawyLwmaAveragingWindow.toNat - 1),
        (j : Int) * clampSolvetime params.nPowTargetSpacing
          (solvetimeAt c1 params.nZawyLwmaAveragingWindow j) := by
    apply Finset.sum_congr rfl
    intro j hj
    have hj2 := Finset.mem_Icc.1 hj
    rw [hsame j hj2.1 (by omega)]
  rw [e, hdouble]
  generalize solvetimeAt c1 params.nZawyLwmaAveragingWindow
    params.nZawyLwmaAveragingWindow.toNat = sv at hpos hlt
  have h1 : clampSolvetime params.nPowTargetSpacing sv = sv :=
    clampSolvetime_mid _ _ (by omega) (by omega)
  have h2 : sv < clampSolvetime params.nPowTargetSpacing (2 * sv) := by
    unfold clampSolvetime
    exact lt_of_lt_of_le (lt_min (by omega) hlt) (le_max_right _ _)
  rw [h1]
  have h3 := mul_lt_mul_of_pos_left h2 (show (0 : Int) < params.nZawyLwmaAveragingWindow by omega)
  omega

/-- Witness for C8 (as amended): window 2, spacing 10, last solvetime 10 doubled to 20. -/
theorem lwmaAccumulate_doubling_last_witness :
    (solvetimeAt (chainOfTimes [0, 10, 20, 30]) 2 2 = 10 ∧
      solvetimeAt (chainOfTimes [0, 10, 20, 40]) 2 2 = 20) ∧
    ∃ s1 s2, lwmaAccumulate (chainOfTimes [0, 10, 20, 30]) smallParams = some s1 ∧
      lwmaAccumulate (chainOfTimes [0, 10, 20, 40]) smallParams = some s2 ∧ s1.t < s2.t :=
  ⟨⟨by decide, by decide⟩,
    lwmaAccumulate_doubling_last (chainOfTimes [0, 10, 20, 30]) (chainOfTimes [0, 10, 20, 40])
      smallParams (by decide) (by decide) (by decide) (by decide) (by decide) (by decide)
      (by decide) (by decide) (by decide)⟩

/-- C8, counterexample: window 2, spacing 10; the most recent solvetime 60 = 6T
of the first chain is doubled to 120 in the second, the other pair is the same,
and both runs accumulate the same `t = 130`. -/
theorem lwmaAccumulate_doubling_last_counterexample :
    solvetimeAt (chainOfTimes [0, 10, 20, 80]) 2 1
      = solvetimeAt (chainOfTimes [0, 10, 20, 140]) 2 1 ∧
    solvetimeAt (chainOfTimes [0, 10, 20, 140]) 2 2
      = 2 * solvetimeAt (chainOfTimes [0, 10, 20, 80]) 2 2 ∧
    (lwmaAccumulate (chainOfTimes [0, 10, 20, 80]) smallParams).map LwmaState.t = some 130 ∧
    (lwmaAccumulate (chainOfTimes [0, 10, 20, 140]) smallParams).map LwmaState.t = some 130 := by
  decide

/-! ## Target codec: facts -/

theorem bitsAux_zero (f : Nat) : bitsAux f 0 = 0 := by
  cases f <;> simp [bitsAux]

theorem bitsAux_spec : ∀ (f x : Nat), x < 2 ^ f →
    x < 2 ^ bitsAux f x ∧ (0 < x → 2 ^ bitsAux f x ≤ 2 * x) := by
  intro f
  induction f with
  | zero =>
    intro x hx
    simp only [pow_zero, Nat.lt_one_iff] at hx
    subst hx
    simp [bitsAux]
  | succ f ih =>
    intro x hx
    by_cases h0 : x = 0
    · subst h0
      simp [bitsAux]
    · have hx2 : x / 2 < 2 ^ f := by
        rw [pow_succ] at hx
        omega
      obtain ⟨h1, h2⟩ := ih (x / 2) hx2
      simp only [bitsAux, h0, if_false, pow_succ]
      by_cases h3 : x / 2 = 0
      · rw [h3, bitsAux_zero]
        simp only [pow_zero]
        omega
      · have := h2 (by omega)
        omega

theorem byteLength_spec (x : Nat) (hx : x < 2 ^ 256) :
    x < 256 ^ byteLength x ∧ (0 < x → 256 ^ byteLength x ≤ 256 * x) := by
  have h := bitsAux_spec 256 x hx
  change x < 2 ^ bits x ∧ (0 < x → 2 ^ bits x ≤ 2 * x) at h
  have e : (256 : Nat) ^ byteLength x = 2 ^ (8 * byteLength x) := by
    rw [pow_mul]; norm_num
  have hb1 : bits x ≤ 8 * byteLength x := by unfold byteLength; omega
  have hb2 : 8 * byteLength x ≤ bits x + 7 := by unfold byteLength; omega
  rw [e]
  refine ⟨lt_of_lt_of_le h.1 (Nat.pow_le_pow_right (by norm_num) hb1), ?_⟩
  intro hpos
  have h3 := h.2 hpos
  have h4 : 2 ^ (8 * byteLength x) ≤ 2 ^ (bits x + 7) := Nat.pow_le_pow_right (by norm_num) hb2
  rw [pow_add] at h4
  omega

theorem byteLength_zero : byteLength 0 = 0 := by
  unfold byteLength bits
  rw [bitsAux_zero]

theorem byteLength_le (x : Nat) (hx : x < 2 ^ 256) : byteLength x ≤ 32 := by
  by_cases h0 : x = 0
  · subst h0
    rw [byteLength_zero]
    omega
  · have h1 := (byteLength_spec x hx).2 (by omega)
    by_contra hcon
    have h2 : (256 : Nat) ^ 33 ≤ 256 ^ byteLength x :=
      Nat.pow_le_pow_right (by norm_num) (by omega)
    have h3 : (256 : Nat) ^ 33 = 256 * 2 ^ 256 := by norm_num
    omega

theorem shiftLeft_bytes (x k : Nat) : x <<< (8 * k) = x * 256 ^ k := by
  rw [Nat.shiftLeft_eq, pow_mul]
  norm_num

theorem shiftRight_bytes (x k : Nat) : x >>> (8 * k) = x / 256 ^ k := by
  rw [Nat.shiftRight_eq_div_pow, pow_mul]
  norm_num

theorem topMantissa_small (x : Nat) (h : byteLength x ≤ 3) :
    topMantissa x = x * 256 ^ (3 - byteLength x) := by
  unfold topMantissa
  rw [if_pos h, shiftLeft_bytes]

theorem topMantissa_large (x : Nat) (h : ¬ byteLength x ≤ 3) :
    topMantissa x = x / 256 ^ (byteLength x - 3) := by
  unfold topMantissa
  rw [if_neg h, shiftRight_bytes]

theorem topMantissa_lt (x : Nat) (hx : x < 2 ^ 256) : topMantissa x < 2 ^ 24 := by
  have h1 := (byteLength_spec x hx).1
  by_cases h : byteLength x ≤ 3
  · rw [topMantissa_small x h]
    have e : (256 : Nat) ^ byteLength x * 256 ^ (3 - byteLength x) = 2 ^ 24 := by
      rw [← pow_add, Nat.add_sub_cancel' h]; norm_num
    calc x * 256 ^ (3 - byteLength x)
        < 256 ^ byteLength x * 256 ^ (3 - byteLength x) :=
          Nat.mul_lt_mul_of_pos_right h1 (by positivity)
      _ = 2 ^ 24 := e
  · rw [topMantissa_large x h]
    have e : (256 : Nat) ^ byteLength x = 2 ^ 24 * 256 ^ (byteLength x - 3) := by
      rw [show (2 : Nat) ^ 24 = 256 ^ 3 by norm_num, ← pow_add]
      congr 1; omega
    rw [e] at h1
    exact Nat.div_lt_of_lt_mul (by rw [mul_comm]; exact h1)

theorem topMantissa_ge (x : Nat) (hx : x < 2 ^ 256) (hpos : 0 < x) :
    2 ^ 16 ≤ topMantissa x := by
  have h1 := (byteLength_spec x hx).2 hpos
  by_cases h : byteLength x ≤ 3
  · rw [topMantissa_small x h]
    have e : (256 : Nat) ^ byteLength x * 256 ^ (3 - byteLength x) = 256 * 2 ^ 16 := by
      rw [← pow_add, Nat.add_sub_cancel' h]; norm_num
    have h2 := Nat.mul_le_mul_right (256 ^ (3 - byteLength x)) h1
    rw [e, mul_assoc] at h2
    exact Nat.le_of_mul_le_mul_left h2 (by norm_num)
  · rw [topMantissa_large x h]
    have e : (256 : Nat) ^ byteLength x = 256 * (2 ^ 16 * 256 ^ (byteLength x - 3)) := by
      rw [show (2 : Nat) ^ 16 = 256 ^ 2 by norm_num, ← pow_add, ← pow_succ']
      congr 1; omega
    rw [e] at h1
    have h2 : 2 ^ 16 * 256 ^ (byteLength x - 3) ≤ x :=
      Nat.le_of_mul_le_mul_left h1 (by norm_num)
    exact (Nat.le_div_iff_mul_le (by positivity)).2 h2

theorem compact_fields (e m : Nat) (he : e < 256) (hm : m < 2 ^ 23) :
    compactExponent (e * 2 ^ 24 + m) = e ∧ compactMantissa (e * 2 ^ 24 + m) = m ∧
      compactSign (e * 2 ^ 24 + m) = false := by
  unfold compactExponent compactMantissa compactSign
  norm_num at hm ⊢
  refine ⟨by omega, by omega, by omega⟩

theorem compactShifted_eq (n : Nat) :
    compactShifted n = if compactExponent n ≤ 3
      then compactMantissa n / 256 ^ (3 - compactExponent n)
      else compactMantissa n * 256 ^ (compactExponent n - 3) := by
  unfold compactShifted
  simp only [shiftLeft_bytes, shiftRight_bytes]

theorem GetCompact_eq (x : Nat) :
    GetCompact x = if 2 ^ 23 ≤ topMantissa x
      then (byteLength x + 1) * 2 ^ 24 + topMantissa x / 256
      else byteLength x * 2 ^ 24 + topMantissa x := by
  show (if 2 ^ 23 ≤ topMantissa x
      then (byteLength x + 1) * 2 ^ 24 + (topMantissa x >>> 8)
      else byteLength x * 2 ^ 24 + topMantissa x) = _
  rw [Nat.shiftRight_eq_div_pow]

theorem decode_encode (x : Nat) (hx : x < 2 ^ 256) :
    compactSign (GetCompact x) = false ∧
    compactExponent (GetCompact x)
      = (if 2 ^ 23 ≤ topMantissa x then byteLength x + 1 else byteLength x) ∧
    compactShifted (GetCompact x)
      = x / 256 ^ (compactExponent (GetCompact x) - 3)
          * 256 ^ (compactExponent (GetCompact x) - 3) := by
  have hn := byteLength_le x hx
  have hm := topMantissa_lt x hx
  by_cases htop : 2 ^ 23 ≤ topMantissa x
  · have hm2 : topMantissa x / 256 < 2 ^ 23 := by
      norm_num at hm ⊢
      omega
    obtain ⟨h1, h2, h3⟩ := compact_fields (byteLength x + 1) (topMantissa x / 256)
      (by omega) hm2
    rw [GetCompact_eq, if_pos htop, compactShifted_eq, h1, h2]
    refine ⟨h3, by rw [if_pos htop], ?_⟩
    by_cases hs : byteLength x ≤ 3
    · rw [topMantissa_small x hs]
      by_cases hs2 : byteLength x + 1 ≤ 3
      · rw [if_pos hs2]
        have e1 : 3 - byteLength x = (3 - (byteLength x + 1)) + 1 := by omega
        have e2 : byteLength x + 1 - 3 = 0 := by omega
        rw [e1, pow_succ, ← mul_assoc, Nat.mul_div_cancel _ (by norm_num), e2, pow_zero,
          Nat.div_one, mul_one, Nat.mul_div_cancel _ (by positivity)]
      · rw [if_neg hs2]
        have e1 : 3 - byteLength x = 0 := by omega
        have e2 : byteLength x + 1 - 3 = 1 := by omega
        rw [e1, e2, pow_zero, mul_one, pow_one]
    · rw [topMantissa_large x hs, if_neg (by omega)]
      have e2 : byteLength x + 1 - 3 = (byteLength x - 3) + 1 := by omega
      rw [e2, Nat.div_div_eq_div_mul, ← pow_succ]
  · have hm2 : topMantissa x < 2 ^ 23 := by omega
    obtain ⟨h1, h2, h3⟩ := compact_fields (byteLength x) (topMantissa x) (by omega) hm2
    rw [GetCompact_eq, if_neg htop, compactShifted_eq, h1, h2]
    refine ⟨h3, by rw [if_neg htop], ?_⟩
    by_cases hs : byteLength x ≤ 3
    · rw [topMantissa_small x hs, if_pos hs]
      have e2 : byteLength x - 3 = 0 := by omega
      rw [e2, pow_zero, Nat.div_one, mul_one, Nat.mul_div_cancel _ (by positivity)]
    · rw [topMantissa_large x hs, if_neg hs]

theorem decode_encode_le (x : Nat) (hx : x < 2 ^ 256) :
    compactShifted (GetCompact x) ≤ x := by
  rw [(decode_encode x hx).2.2]
  exact Nat.div_mul_le_self _ _

theorem decode_encode_pos (x : Nat) (hx : x < 2 ^ 256) (hpos : 0 < x) :
    0 < compactShifted (GetCompact x) := by
  obtain ⟨_, h2, h3⟩ := decode_encode x hx
  have hb := byteLength_spec x hx
  have hn1 : 1 ≤ byteLength x := by
    by_contra hcon
    have e : byteLength x = 0 := by omega
    rw [e] at hb
    have := hb.1
    omega
  have hle : compactExponent (GetCompact x) - 3 + 1 ≤ byteLength x := by
    rw [h2]
    split <;> omega
  have h4 : 256 ^ (compactExponent (GetCompact x) - 3 + 1) ≤ 256 ^ byteLength x :=
    Nat.pow_le_pow_right (by norm_num) hle
  have h5 := hb.2 hpos
  rw [pow_succ] at h4
  have h6 : 256 ^ (compactExponent (GetCompact x) - 3) ≤ x := by omega
  rw [h3]
  exact Nat.mul_pos (Nat.div_pos h6 (by positivity)) (by positivity)

theorem SetCompact_GetCompact (x : Nat) (hx : x < 2 ^ 256) :
    SetCompact (GetCompact x)
      = { target := x / 256 ^ (compactExponent (GetCompact x) - 3)
            * 256 ^ (compactExponent (GetCompact x) - 3)
          fNegative := false
          fOverflow := false } := by
  have hle := decode_encode_le x hx
  obtain ⟨h1, _, h3⟩ := decode_encode x hx
  have h256 : (256 : Nat) ^ 32 = 2 ^ 256 := by norm_num
  unfold SetCompact
  rw [Decoded.mk.injEq]
  refine ⟨?_, ?_, ?_⟩
  · rw [Nat.mod_eq_of_lt (lt_of_le_of_lt hle hx), h3]
  · rw [h1]; rfl
  · rw [decide_eq_false_iff_not, h256]
    omega

/-- C9 (as amended): for every Target `x` of byte length at most 32 whose
three-byte mantissa has its top bit clear, `decode(encode(x))` returns
`(x', false, false)` where `x'` is `x` with every byte below its three most
significant bytes cleared; it returns `(x, false, false)` exactly when those
low bytes of `x` are zero. -/
theorem SetCompact_GetCompact_roundtrip (x : Nat) (hx : x < 2 ^ 256)
    (htop : topMantissa x < 2 ^ 23) :
    SetCompact (GetCompact x)
        = { target := x / 256 ^ (byteLength x - 3) * 256 ^ (byteLength x - 3)
            fNegative := false
            fOverflow := false } ∧
    (SetCompact (GetCompact x) = { target := x, fNegative := false, fOverflow := false }
      ↔ 256 ^ (byteLength x - 3) ∣ x) := by
  have he : compactExponent (GetCompact x) = byteLength x := by
    rw [(decode_encode x hx).2.1, if_neg (by omega)]
  have h := SetCompact_GetCompact x hx
  rw [he] at h
  refine ⟨h, ?_⟩
  rw [h, Decoded.mk.injEq]
  constructor
  · intro hh
    exact ⟨x / 256 ^ (byteLength x - 3), by rw [mul_comm]; exact hh.1.symm⟩
  · intro hd
    exact ⟨Nat.div_mul_cancel hd, rfl, rfl⟩

set_option maxRecDepth 100000 in
/-- Witness for C9 (as amended): the target 0x7fff followed by 26 zero bytes. -/
theorem SetCompact_GetCompact_roundtrip_witness :
    (SetCompact (GetCompact (0x7fff * 2 ^ 208))
        = { target := 0x7fff * 2 ^ 208 / 256 ^ (byteLength (0x7fff * 2 ^ 208) - 3)
              * 256 ^ (byteLength (0x7fff * 2 ^ 208) - 3)
            fNegative := false
            fOverflow := false } ∧
    (SetCompact (GetCompact (0x7fff * 2 ^ 208))
        = { target := 0x7fff * 2 ^ 208, fNegative := false, fOverflow := false }
      ↔ 256 ^ (byteLength (0x7fff * 2 ^ 208) - 3) ∣ 0x7fff * 2 ^ 208)) :=
  SetCompact_GetCompact_roundtrip (0x7fff * 2 ^ 208) (by decide) (by decide)

set_option maxRecDepth 100000 in
/-- C9, counterexample: the four-byte target 0x01000001 has mantissa 0x010000
with its top bit clear, yet `decode(encode(0x01000001))` is
`(0x01000000, false, false)`. -/
theorem SetCompact_GetCompact_roundtrip_counterexample :
    (0x01000001 : Nat) < 2 ^ 256 ∧ byteLength 0x01000001 = 4 ∧
    topMantissa 0x01000001 = 0x010000 ∧ topMantissa 0x01000001 < 2 ^ 23 ∧
    GetCompact 0x01000001 = 0x04010000 ∧
    SetCompact (GetCompact 0x01000001)
      = { target := 0x01000000, fNegative := false, fOverflow := false } ∧
    SetCompact (GetCompact 0x01000001)
      ≠ { target := 0x01000001, fNegative := false, fOverflow := false } := by
  decide

/-- C10 (as amended): every compact value whose exponent byte is greater than
34 and whose sign-masked mantissa (bits 0-22) is nonzero decodes with
overflow = true; when that mantissa is zero the value decodes to 0 with
negative = false and overflow = false. -/
theorem SetCompact_overflow_of_large_exponent (nCompact : Nat)
    (he : 34 < compactExponent nCompact) :
    (compactMantissa nCompact ≠ 0 → (SetCompact nCompact).fOverflow = true) ∧
    (compactMantissa nCompact = 0 →
      SetCompact nCompact = { target := 0, fNegative := false, fOverflow := false }) := by
  have hs := compactShifted_large nCompact (by omega)
  constructor
  · intro hm
    unfold SetCompact
    simp only [decide_eq_true_eq]
    rw [hs]
    have h1 : (256 : Nat) ^ 32 ≤ 256 ^ (compactExponent nCompact - 3) :=
      Nat.pow_le_pow_right (by norm_num) (by omega)
    calc (256 : Nat) ^ 32 ≤ 256 ^ (compactExponent nCompact - 3) := h1
      _ ≤ compactMantissa nCompact * 256 ^ (compactExponent nCompact - 3) :=
        Nat.le_mul_of_pos_left _ (by omega)
  · intro hm
    have hz : compactShifted nCompact = 0 := by rw [hs, hm, zero_mul]
    unfold SetCompact
    rw [Decoded.mk.injEq, hz, hm]
    refine ⟨rfl, ?_, ?_⟩
    · simp
    · rw [decide_eq_false_iff_not]
      norm_num

/-- Witness for C10 (as amended): exponent byte 35 with mantissa 1. -/
theorem SetCompact_overflow_of_large_exponent_witness :
    34 < compactExponent 0x23000001 ∧
    (compactMantissa 0x23000001 ≠ 0 → (SetCompact 0x23000001).fOverflow = true) ∧
    (compactMantissa 0x23000001 = 0 →
      SetCompact 0x23000001 = { target := 0, fNegative := false, fOverflow := false }) :=
  ⟨by decide, SetCompact_overflow_of_large_exponent 0x23000001 (by decide)⟩

/-- C10, counterexample: the compact value 0x23000000 has exponent byte 35 and
all three mantissa bytes zero.  Its mantissa `m` is 0, so the shifted
representation `m << 8*(35-3)` is 0 and needs no byte at all; by the overflow
rule of section 4.1 it decodes to 0 with overflow = false. -/
theorem SetCompact_overflow_of_large_exponent_counterexample :
    compactExponent 0x23000000 = 35 ∧ 34 < compactExponent 0x23000000 ∧
    compactMantissa 0x23000000 = 0 ∧
    compactShifted 0x23000000 = 0 ∧ byteLength (compactShifted 0x23000000) = 0 ∧
    SetCompact 0x23000000 = { target := 0, fNegative := false, fOverflow := false } ∧
    (SetCompact 0x23000000).fOverflow ≠ true := by
  decide

/-- C11: if decoding a compact value with exponent `e` and sign-masked mantissa
`m` reports overflow = false, the returned Target is the exact value
`m * 256^(e-3)` when `e > 3` and `floor(m / 256^(3-e))` when `e ≤ 3`, not a
residue modulo `2^256`. -/
theorem SetCompact_exact_of_not_overflow (nCompact : Nat)
    (hov : (SetCompact nCompact).fOverflow = false) :
    (SetCompact nCompact).target
      = if 3 < compactExponent nCompact
        then compactMantissa nCompact * 256 ^ (compactExponent nCompact - 3)
        else compactMantissa nCompact / 256 ^ (3 - compactExponent nCompact) := by
  rw [target_eq_of_not_overflow nCompact hov, compactShifted_eq]
  by_cases h : compactExponent nCompact ≤ 3
  · rw [if_pos h, if_neg (by omega)]
  · rw [if_neg h, if_pos (by omega)]

/-- Witness for C11: the compact value 0x1d00ffff. -/
theorem SetCompact_exact_of_not_overflow_witness :
    (SetCompact 0x1d00ffff).fOverflow = false ∧
    (SetCompact 0x1d00ffff).target
      = if 3 < compactExponent 0x1d00ffff
        then compactMantissa 0x1d00ffff * 256 ^ (compactExponent 0x1d00ffff - 3)
        else compactMantissa 0x1d00ffff / 256 ^ (3 - compactExponent 0x1d00ffff) :=
  ⟨by decide, SetCompact_exact_of_not_overflow 0x1d00ffff (by decide)⟩

/-! ## Ancestor lookups -/

theorem lwmaReads_mem : ∀ (n : Nat) (i r : Int), r ∈ lwmaReads n i →
    i - 1 ≤ r ∧ r ≤ i + n - 1 := by
  intro n
  induction n with
  | zero =>
    intro i r hr
    simp [lwmaReads] at hr
  | succ n ih =>
    intro i r hr
    simp only [lwmaReads, List.mem_cons] at hr
    push_cast
    rcases hr with h | h | h
    · omega
    · omega
    · have := ih (i + 1) r h
      omega

theorem lwmaAccumulate_reads (pindexLast : Chain) (params : Params)
    (hN : 1 ≤ params.nZawyLwmaAveragingWindow)
    (hh : params.nZawyLwmaAveragingWindow < nHeight pindexLast)
    (hd : ofInt64 (lwmaK params.nZawyLwmaAveragingWindow params.nPowTargetSpacing
      * params.nZawyLwmaAveragingWindow) ≠ 0) :
    ∃ s, lwmaAccumulate pindexLast params = some s ∧
      s.reads = lwmaReads params.nZawyLwmaAveragingWindow.toNat
        (nHeight pindexLast - params.nZawyLwmaAveragingWindow + 1) := by
  have hcount : (nHeight pindexLast - (nHeight pindexLast - params.nZawyLwmaAveragingWindow + 1)
      + 1).toNat = params.nZawyLwmaAveragingWindow.toNat := by
    congr 1; ring
  unfold lwmaAccumulate
  simp only [gt_iff_lt, hh, if_true, hcount]
  rw [lwmaLoop_eq pindexLast _ _ _ hd _ _ _ (by omega) (by omega) (by norm_num)]
  exact ⟨_, rfl, by simp only [List.nil_append]⟩

/-- C12: when `GetNextWorkRequired` takes neither bypass (with `N ≥ 1`), the
assertion `height > N` holds, `tip.height - N ≥ 1`, every height passed to the
ancestor lookup lies in `[tip.height - N, tip.height]`, both lookups of every
loop iteration succeed, and, the divisor `k*N` being nonzero, the function
returns a value having passed exactly those heights. -/
theorem GetNextWorkRequired_no_failed_lookup (pindexLast : Chain) (tip : CBlockIndex)
    (pblock : CBlockHeader) (params : Params)
    (htip : pindexLast.getLast? = some tip)
    (hN : 1 ≤ params.nZawyLwmaAveragingWindow)
    (hA : ¬ (params.fPowAllowMinDifficultyBlocks = true ∧
      pblock.GetBlockTime > tip.GetBlockTime + 2 * params.nPowTargetSpacing))
    (hB : ¬ nHeight pindexLast ≤ params.nZawyLwmaAveragingWindow) :
    nHeight pindexLast > params.nZawyLwmaAveragingWindow ∧
    1 ≤ nHeight pindexLast - params.nZawyLwmaAveragingWindow ∧
    (∀ r ∈ lwmaReads params.nZawyLwmaAveragingWindow.toNat
        (nHeight pindexLast - params.nZawyLwmaAveragingWindow + 1),
      nHeight pindexLast - params.nZawyLwmaAveragingWindow ≤ r ∧ r ≤ nHeight pindexLast) ∧
    (∀ i : Int, nHeight pindexLast - params.nZawyLwmaAveragingWindow + 1 ≤ i →
      i ≤ nHeight pindexLast →
      (GetAncestor pindexLast (nHeight pindexLast) i).isSome = true ∧
      (GetAncestor pindexLast i (i - 1)).isSome = true) ∧
    (ofInt64 (lwmaK params.nZawyLwmaAveragingWindow params.nPowTargetSpacing
        * params.nZawyLwmaAveragingWindow) ≠ 0 →
      ∃ v, GetNextWorkRequired pindexLast pblock params
        = some (v, lwmaReads params.nZawyLwmaAveragingWindow.toNat
            (nHeight pindexLast - params.nZawyLwmaAveragingWindow + 1))) := by
  have hh : params.nZawyLwmaAveragingWindow < nHeight pindexLast := not_le.1 hB
  refine ⟨hh, by omega, ?_, ?_, ?_⟩
  · intro r hr
    have h1 := lwmaReads_mem _ _ r hr
    have h2 : ((params.nZawyLwmaAveragingWindow.toNat : Nat) : Int)
        = params.nZawyLwmaAveragingWindow := Int.toNat_of_nonneg (by omega)
    rw [h2] at h1
    omega
  · intro i hi1 hi2
    have hlen : nHeight pindexLast = (pindexLast.length : Int) - 1 := rfl
    rw [GetAncestor_eq pindexLast _ i (by omega) hi2,
      GetAncestor_eq pindexLast _ (i - 1) (by omega) (by omega)]
    rw [List.getElem?_eq_getElem (show i.toNat < pindexLast.length by omega),
      List.getElem?_eq_getElem (show (i - 1).toNat < pindexLast.length by omega)]
    exact ⟨rfl, rfl⟩
  · intro hd
    obtain ⟨s, hs, hr⟩ := lwmaAccumulate_reads pindexLast params hN hh hd
    rw [GetNextWorkRequired_eq_of_no_bypass pindexLast tip pblock params htip hh hA]
    unfold LwmaCalculateNextWorkRequired
    rw [hs]
    exact ⟨_, by rw [← hr]⟩

/-- Witness for C12: window 2 on a four-block chain (tip height 3). -/
theorem GetNextWorkRequired_no_failed_lookup_witness :
    nHeight (chainOfTimes [0, 10, 20, 30]) > smallParams.nZawyLwmaAveragingWindow ∧
    1 ≤ nHeight (chainOfTimes [0, 10, 20, 30]) - smallParams.nZawyLwmaAveragingWindow ∧
    (∀ r ∈ lwmaReads smallParams.nZawyLwmaAveragingWindow.toNat
        (nHeight (chainOfTimes [0, 10, 20, 30]) - smallParams.nZawyLwmaAveragingWindow + 1),
      nHeight (chainOfTimes [0, 10, 20, 30]) - smallParams.nZawyLwmaAveragingWindow ≤ r ∧
        r ≤ nHeight (chainOfTimes [0, 10, 20, 30])) ∧
    (∀ i : Int, nHeight (chainOfTimes [0, 10, 20, 30])
        - smallParams.nZawyLwmaAveragingWindow + 1 ≤ i →
      i ≤ nHeight (chainOfTimes [0, 10, 20, 30]) →
      (GetAncestor (chainOfTimes [0, 10, 20, 30]) (nHeight (chainOfTimes [0, 10, 20, 30])) i).isSome
        = true ∧
      (GetAncestor (chainOfTimes [0, 10, 20, 30]) i (i - 1)).isSome = true) ∧
    (ofInt64 (lwmaK smallParams.nZawyLwmaAveragingWindow smallParams.nPowTargetSpacing
        * smallParams.nZawyLwmaAveragingWindow) ≠ 0 →
      ∃ v, GetNextWorkRequired (chainOfTimes [0, 10, 20, 30]) { nTime := 40 } smallParams
        = some (v, lwmaReads smallParams.nZawyLwmaAveragingWindow.toNat
            (nHeight (chainOfTimes [0, 10, 20, 30])
              - smallParams.nZawyLwmaAveragingWindow + 1))) :=
  GetNextWorkRequired_no_failed_lookup (chainOfTimes [0, 10, 20, 30]) ⟨30, 0x1d00ffff⟩
    { nTime := 40 } smallParams (by decide) (by decide) (by decide) (by decide)

/-! ## The floor step and bounds on the product -/

theorem lwmaFloor_eq_max (k t : Int) (hk : 0 ≤ k) : lwmaFloor k t = max t (k / 10) := by
  unfold lwmaFloor
  rw [Int.tdiv_eq_ediv hk (by norm_num), max_def]
  split_ifs <;> omega

theorem lwmaFloor_bounds (pindexLast : Chain) (N T : Int) (hN : 1 ≤ N) (hT : 1 ≤ T) :
    lwmaK N T / 10 ≤ lwmaFloor (lwmaK N T) (specWeightedTime pindexLast N T) ∧
    lwmaFloor (lwmaK N T) (specWeightedTime pindexLast N T) ≤ 6 * lwmaK N T ∧
    0 ≤ lwmaFloor (lwmaK N T) (specWeightedTime pindexLast N T) := by
  have hk := lwmaK_pos N T hN hT
  have hle := specWeightedTime_le pindexLast N T hN hT
  rw [lwmaFloor_eq_max _ _ (by omega)]
  refine ⟨le_max_right _ _, max_le hle (by omega), le_trans (by omega) (le_max_right _ _)⟩

/-- C15: for `N ≥ 1`, `T ≥ 1` and any window, the time `t` that
`LwmaCalculateNextWorkRequired` multiplies into `sum_target` after the floor
step satisfies `k/10 ≤ t ≤ 6*k` with `k = N*(N+1)*T/2`; it is not negative, and
its conversion to an unsigned 256-bit integer is `t` itself. -/
theorem LwmaCalculateNextWorkRequired_time_bounds (pindexLast : Chain) (params : Params)
    (hN : 1 ≤ params.nZawyLwmaAveragingWindow) (hT : 1 ≤ params.nPowTargetSpacing)
    (hh : params.nZawyLwmaAveragingWindow < nHeight pindexLast)
    (hfit : NoInt64Overflow params.nZawyLwmaAveragingWindow params.nPowTargetSpacing) :
    ∃ s, lwmaAccumulate pindexLast params = some s ∧
      LwmaCalculateNextWorkRequired pindexLast params = some
        (GetCompact
          (ofInt64 (lwmaFloor
              (lwmaK params.nZawyLwmaAveragingWindow params.nPowTargetSpacing) s.t)
            * s.sum_target % 2 ^ 256), s.reads) ∧
      lwmaK params.nZawyLwmaAveragingWindow params.nPowTargetSpacing
        = params.nZawyLwmaAveragingWindow * (params.nZawyLwmaAveragingWindow + 1)
            * params.nPowTargetSpacing / 2 ∧
      lwmaK params.nZawyLwmaAveragingWindow params.nPowTargetSpacing / 10
        ≤ lwmaFloor (lwmaK params.nZawyLwmaAveragingWindow params.nPowTargetSpacing) s.t ∧
      lwmaFloor (lwmaK params.nZawyLwmaAveragingWindow params.nPowTargetSpacing) s.t
        ≤ 6 * lwmaK params.nZawyLwmaAveragingWindow params.nPowTargetSpacing ∧
      0 ≤ lwmaFloor (lwmaK params.nZawyLwmaAveragingWindow params.nPowTargetSpacing) s.t ∧
      ((ofInt64 (lwmaFloor
          (lwmaK params.nZawyLwmaAveragingWindow params.nPowTargetSpacing) s.t) : Nat) : Int)
        = lwmaFloor (lwmaK params.nZawyLwmaAveragingWindow params.nPowTargetSpacing) s.t := by
  obtain ⟨h1, h2, h3⟩ := lwmaFloor_bounds pindexLast _ _ hN hT
  have h6 := hfit.2
  refine ⟨_, lwmaAccumulate_eq pindexLast params hN hT hh hfit, ?_,
    lwmaK_eq_ediv _ _ hN hT, h1, h2, h3, ?_⟩
  · unfold LwmaCalculateNextWorkRequired
    rw [lwmaAccumulate_eq pindexLast params hN hT hh hfit]
  · simp only
    rw [ofInt64_eq_toNat _ h3 (by omega)]
    exact Int.toNat_of_nonneg h3

/-- Witness for C15: the 47-block steady chain with window 45 and spacing 600. -/
theorem LwmaCalculateNextWorkRequired_time_bounds_witness :
    ∃ s, lwmaAccumulate steadyChain steadyParams = some s ∧
      LwmaCalculateNextWorkRequired steadyChain steadyParams = some
        (GetCompact
          (ofInt64 (lwmaFloor
              (lwmaK steadyParams.nZawyLwmaAveragingWindow steadyParams.nPowTargetSpacing) s.t)
            * s.sum_target % 2 ^ 256), s.reads) ∧
      lwmaK steadyParams.nZawyLwmaAveragingWindow steadyParams.nPowTargetSpacing
        = steadyParams.nZawyLwmaAveragingWindow * (steadyParams.nZawyLwmaAveragingWindow + 1)
            * steadyParams.nPowTargetSpacing / 2 ∧
      lwmaK steadyParams.nZawyLwmaAveragingWindow steadyParams.nPowTargetSpacing / 10
        ≤ lwmaFloor
            (lwmaK steadyParams.nZawyLwmaAveragingWindow steadyParams.nPowTargetSpacing) s.t ∧
      lwmaFloor (lwmaK steadyParams.nZawyLwmaAveragingWindow steadyParams.nPowTargetSpacing) s.t
        ≤ 6 * lwmaK steadyParams.nZawyLwmaAveragingWindow steadyParams.nPowTargetSpacing ∧
      0 ≤ lwmaFloor
        (lwmaK steadyParams.nZawyLwmaAveragingWindow steadyParams.nPowTargetSpacing) s.t ∧
      ((ofInt64 (lwmaFloor
          (lwmaK steadyParams.nZawyLwmaAveragingWindow steadyParams.nPowTargetSpacing) s.t)
            : Nat) : Int)
        = lwmaFloor
            (lwmaK steadyParams.nZawyLwmaAveragingWindow steadyParams.nPowTargetSpacing) s.t :=
  LwmaCalculateNextWorkRequired_time_bounds steadyChain steadyParams
    (by decide) (by decide) (by decide) (by decide)

theorem divisor_cast (N T : Int) (hN : 1 ≤ N) (hT : 1 ≤ T) :
    (((lwmaK N T * N).toNat : Nat) : Int) = lwmaK N T * N ∧ 0 < (lwmaK N T * N).toNat := by
  have h := lwmaK_mul_N_pos N T hN hT
  exact ⟨Int.toNat_of_nonneg (by omega), by omega⟩

/-- C16: for `N ≥ 1`, `T ≥ 1` and a window whose `N` solvetimes all equal `T`
and whose `N` blocks all carry the target `X`, the accumulated time is `t = k`
(also after the floor step) and `V = t * sum_target` satisfies
`X - k*N < V ≤ X`, with `V = X` exactly when `k*N` divides `X`. -/
theorem LwmaCalculateNextWorkRequired_steady_state (pindexLast : Chain) (params : Params)
    (nBits : Nat)
    (hN : 1 ≤ params.nZawyLwmaAveragingWindow) (hT : 1 ≤ params.nPowTargetSpacing)
    (hh : params.nZawyLwmaAveragingWindow < nHeight pindexLast)
    (hfit : NoInt64Overflow params.nZawyLwmaAveragingWindow params.nPowTargetSpacing)
    (hs : ∀ j : Nat, 1 ≤ j → j ≤ params.nZawyLwmaAveragingWindow.toNat →
      solvetimeAt pindexLast params.nZawyLwmaAveragingWindow j = params.nPowTargetSpacing)
    (hb : ∀ j : Nat, 1 ≤ j → j ≤ params.nZawyLwmaAveragingWindow.toNat →
      bitsAt pindexLast (nHeight pindexLast - params.nZawyLwmaAveragingWindow + j) = nBits) :
    ∃ s, lwmaAccumulate pindexLast params = some s ∧
      s.t = lwmaK params.nZawyLwmaAveragingWindow params.nPowTargetSpacing ∧
      lwmaFloor (lwmaK params.nZawyLwmaAveragingWindow params.nPowTargetSpacing) s.t
        = lwmaK params.nZawyLwmaAveragingWindow params.nPowTargetSpacing ∧
      ((SetCompact nBits).target : Int)
          - lwmaK params.nZawyLwmaAveragingWindow params.nPowTargetSpacing
            * params.nZawyLwmaAveragingWindow
        < lwmaFloor (lwmaK params.nZawyLwmaAveragingWindow params.nPowTargetSpacing) s.t
            * s.sum_target ∧
      lwmaFloor (lwmaK params.nZawyLwmaAveragingWindow params.nPowTargetSpacing) s.t
          * s.sum_target ≤ ((SetCompact nBits).target : Int) ∧
      (lwmaFloor (lwmaK params.nZawyLwmaAveragingWindow params.nPowTargetSpacing) s.t
          * s.sum_target = ((SetCompact nBits).target : Int)
        ↔ lwmaK params.nZawyLwmaAveragingWindow params.nPowTargetSpacing
            * params.nZawyLwmaAveragingWindow ∣ ((SetCompact nBits).target : Int)) := by
  have hk := lwmaK_pos _ _ hN hT
  have hk2 := lwmaK_mul_two _ _ hN hT
  have hke := lwmaK_eq_ediv _ _ hN hT
  obtain ⟨hd1, hd2⟩ := divisor_cast _ _ hN hT
  have hNc : ((params.nZawyLwmaAveragingWindow.toNat : Nat) : Int)
      = params.nZawyLwmaAveragingWindow := Int.toNat_of_nonneg (by omega)
  have ht : specWeightedTime pindexLast params.nZawyLwmaAveragingWindow
      params.nPowTargetSpacing
      = lwmaK params.nZawyLwmaAveragingWindow params.nPowTargetSpacing := by
    have h1 := specWeightedTime_steady pindexLast _ _ (show 0 ≤ params.nPowTargetSpacing by omega)
      hs
    rw [hNc] at h1
    have h2 : params.nPowTargetSpacing
          * (params.nZawyLwmaAveragingWindow * (params.nZawyLwmaAveragingWindow + 1))
        = params.nZawyLwmaAveragingWindow * (params.nZawyLwmaAveragingWindow + 1)
          * params.nPowTargetSpacing := by ring
    omega
  have hS := specSumTarget_steady pindexLast params.nZawyLwmaAveragingWindow
    params.nPowTargetSpacing nBits hb
  rw [← hke] at hS
  have hfl : lwmaFloor (lwmaK params.nZawyLwmaAveragingWindow params.nPowTargetSpacing)
      (lwmaK params.nZawyLwmaAveragingWindow params.nPowTargetSpacing)
      = lwmaK params.nZawyLwmaAveragingWindow params.nPowTargetSpacing := by
    rw [lwmaFloor_eq_max _ _ (by omega)]
    exact max_eq_left (by omega)
  refine ⟨_, lwmaAccumulate_eq pindexLast params hN hT hh hfit, ht, ?_, ?_⟩
  · simp only
    rw [ht, hfl]
  simp only
  rw [ht, hfl, hS]
  generalize (SetCompact nBits).target = X
  generalize hd : (lwmaK params.nZawyLwmaAveragingWindow params.nPowTargetSpacing
    * params.nZawyLwmaAveragingWindow).toNat = d at hd1 hd2
  have hV : lwmaK params.nZawyLwmaAveragingWindow params.nPowTargetSpacing
        * ((params.nZawyLwmaAveragingWindow.toNat * (X / d) : Nat) : Int)
      = ((d * (X / d) : Nat) : Int) := by
    push_cast
    rw [hNc, hd1]
    ring
  rw [hV, ← hd1]
  have h1 : d * (X / d) ≤ X := Nat.mul_div_le X d
  have h2 : X < d * (X / d) + d := by
    have := Nat.div_add_mod X d
    have := Nat.mod_lt X hd2
    omega
  refine ⟨by omega, by exact_mod_cast h1, ?_⟩
  rw [Int.natCast_dvd_natCast, Nat.cast_inj]
  constructor
  · intro h
    exact ⟨X / d, h.symm⟩
  · intro h
    exact Nat.mul_div_cancel' h

set_option maxRecDepth 100000 in
/-- Witness for C16: the 47-block steady chain with window 45 and spacing 600. -/
theorem LwmaCalculateNextWorkRequired_steady_state_witness :
    ∃ s, lwmaAccumulate steadyChain steadyParams = some s ∧
      s.t = lwmaK steadyParams.nZawyLwmaAveragingWindow steadyParams.nPowTargetSpacing ∧
      lwmaFloor (lwmaK steadyParams.nZawyLwmaAveragingWindow steadyParams.nPowTargetSpacing) s.t
        = lwmaK steadyParams.nZawyLwmaAveragingWindow steadyParams.nPowTargetSpacing ∧
      ((SetCompact 0x1d00ffff).target : Int)
          - lwmaK steadyParams.nZawyLwmaAveragingWindow steadyParams.nPowTargetSpacing
            * steadyParams.nZawyLwmaAveragingWindow
        < lwmaFloor
            (lwmaK steadyParams.nZawyLwmaAveragingWindow steadyParams.nPowTargetSpacing) s.t
            * s.sum_target ∧
      lwmaFloor (lwmaK steadyParams.nZawyLwmaAveragingWindow steadyParams.nPowTargetSpacing) s.t
          * s.sum_target ≤ ((SetCompact 0x1d00ffff).target : Int) ∧
      (lwmaFloor (lwmaK steadyParams.nZawyLwmaAveragingWindow steadyParams.nPowTargetSpacing) s.t
          * s.sum_target = ((SetCompact 0x1d00ffff).target : Int)
        ↔ lwmaK steadyParams.nZawyLwmaAveragingWindow steadyParams.nPowTargetSpacing
            * steadyParams.nZawyLwmaAveragingWindow ∣ ((SetCompact 0x1d00ffff).target : Int)) :=
  LwmaCalculateNextWorkRequired_steady_state steadyChain steadyParams 0x1d00ffff
    (by decide) (by decide) (by decide) (by decide) (by decide) (by decide)

theorem specSumTarget_le (chain : Chain) (N T : Int) (M : Nat) (hN : 1 ≤ N) (hT : 1 ≤ T)
    (hM : ∀ j : Nat, 1 ≤ j → j ≤ N.toNat → targetAt chain (nHeight chain - N + j) ≤ M) :
    specSumTarget chain N T ≤ N.toNat * (M / (lwmaK N T * N).toNat) := by
  unfold specSumTarget
  rw [← lwmaK_eq_ediv N T hN hT]
  have hb : ∀ j ∈ Finset.Icc 1 N.toNat,
      targetAt chain (nHeight chain - N + j) / (lwmaK N T * N).toNat
        ≤ M / (lwmaK N T * N).toNat := by
    intro j hj
    have hj2 := Finset.mem_Icc.1 hj
    exact Nat.div_le_div_right (hM j hj2.1 hj2.2)
  have h1 := Finset.sum_le_sum hb
  rw [Finset.sum_const, Nat.card_Icc, smul_eq_mul, Nat.add_sub_cancel] at h1
  exact h1

theorem lwmaFloor_mul_specSumTarget_le (chain : Chain) (N T : Int) (M : Nat)
    (hN : 1 ≤ N) (hT : 1 ≤ T)
    (hM : ∀ j : Nat, 1 ≤ j → j ≤ N.toNat → targetAt chain (nHeight chain - N + j) ≤ M) :
    lwmaFloor (lwmaK N T) (specWeightedTime chain N T) * (specSumTarget chain N T : Int)
      ≤ 6 * (M : Int) := by
  obtain ⟨_, h2, h3⟩ := lwmaFloor_bounds chain N T hN hT
  obtain ⟨hd1, hd2⟩ := divisor_cast N T hN hT
  have hS := specSumTarget_le chain N T M hN hT hM
  have hNc : ((N.toNat : Nat) : Int) = N := Int.toNat_of_nonneg (by omega)
  have hk := lwmaK_pos N T hN hT
  generalize lwmaFloor (lwmaK N T) (specWeightedTime chain N T) = t at h2 h3
  generalize specSumTarget chain N T = S at hS
  generalize (lwmaK N T * N).toNat = d at hd1 hd2 hS
  have hSi : (S : Int) ≤ N * ((M / d : Nat) : Int) := by
    rw [← hNc]; exact_mod_cast hS
  have hdm : (d : Int) * ((M / d : Nat) : Int) ≤ (M : Int) := by
    exact_mod_cast Nat.mul_div_le M d
  calc t * (S : Int)
      ≤ 6 * lwmaK N T * (S : Int) := mul_le_mul_of_nonneg_right h2 (Int.natCast_nonneg _)
    _ ≤ 6 * lwmaK N T * (N * ((M / d : Nat) : Int)) :=
        mul_le_mul_of_nonneg_left hSi (by omega)
    _ = 6 * ((d : Int) * ((M / d : Nat) : Int)) := by rw [hd1]; ring
    _ ≤ 6 * (M : Int) := by omega

theorem SetCompact_GetCompact_target_le (x : Nat) (hx : x < 2 ^ 256) :
    (SetCompact (GetCompact x)).target ≤ x := by
  rw [SetCompact_GetCompact x hx]
  exact Nat.div_mul_le_self _ _

/-- C18: for `N ≥ 1`, `T ≥ 1` and a window in which every block's decoded target
is at most `M`, the exact product `t * sum_target` formed by
`LwmaCalculateNextWorkRequired` is at most `6*M`; when `6*M < 2^256` the 256-bit
multiplication does not wrap and the returned compact value decodes to at most
`6*M`. -/
theorem LwmaCalculateNextWorkRequired_bounded_growth (pindexLast : Chain) (params : Params)
    (M : Nat)
    (hN : 1 ≤ params.nZawyLwmaAveragingWindow) (hT : 1 ≤ params.nPowTargetSpacing)
    (hh : params.nZawyLwmaAveragingWindow < nHeight pindexLast)
    (hfit : NoInt64Overflow params.nZawyLwmaAveragingWindow params.nPowTargetSpacing)
    (hM : ∀ j : Nat, 1 ≤ j → j ≤ params.nZawyLwmaAveragingWindow.toNat →
      targetAt pindexLast (nHeight pindexLast - params.nZawyLwmaAveragingWindow + j) ≤ M) :
    ∃ s, lwmaAccumulate pindexLast params = some s ∧
      lwmaFloor (lwmaK params.nZawyLwmaAveragingWindow params.nPowTargetSpacing) s.t
          * s.sum_target ≤ 6 * (M : Int) ∧
      (6 * M < 2 ^ 256 →
        ((ofInt64 (lwmaFloor
              (lwmaK params.nZawyLwmaAveragingWindow params.nPowTargetSpacing) s.t)
            * s.sum_target % 2 ^ 256 : Nat) : Int)
          = lwmaFloor (lwmaK params.nZawyLwmaAveragingWindow params.nPowTargetSpacing) s.t
              * s.sum_target ∧
        ∃ c, LwmaCalculateNextWorkRequired pindexLast params = some (c, s.reads) ∧
          (SetCompact c).target ≤ 6 * M) := by
  obtain ⟨_, h2, h3⟩ := lwmaFloor_bounds pindexLast _ _ hN hT
  have h6 := hfit.2
  have hprod := lwmaFloor_mul_specSumTarget_le pindexLast _ _ M hN hT hM
  have hacc := lwmaAccumulate_eq pindexLast params hN hT hh hfit
  have hcalc : LwmaCalculateNextWorkRequired pindexLast params = some
      (GetCompact (ofInt64 (lwmaFloor
          (lwmaK params.nZawyLwmaAveragingWindow params.nPowTargetSpacing)
          (specWeightedTime pindexLast params.nZawyLwmaAveragingWindow
            params.nPowTargetSpacing))
        * specSumTarget pindexLast params.nZawyLwmaAveragingWindow params.nPowTargetSpacing
        % 2 ^ 256),
        lwmaReads params.nZawyLwmaAveragingWindow.toNat
          (nHeight pindexLast - params.nZawyLwmaAveragingWindow + 1)) := by
    unfold LwmaCalculateNextWorkRequired
    rw [hacc]
  refine ⟨_, hacc, hprod, ?_⟩
  intro hM6
  simp only
  rw [hcalc]
  generalize lwmaFloor (lwmaK params.nZawyLwmaAveragingWindow params.nPowTargetSpacing)
    (specWeightedTime pindexLast params.nZawyLwmaAveragingWindow params.nPowTargetSpacing)
    = t at h2 h3 hprod ⊢
  generalize specSumTarget pindexLast params.nZawyLwmaAveragingWindow
    params.nPowTargetSpacing = S at hprod ⊢
  rw [ofInt64_eq_toNat t h3 (by omega)]
  have hcast : ((t.toNat * S : Nat) : Int) = t * S := by
    push_cast
    rw [Int.toNat_of_nonneg h3]
  have hle : t.toNat * S ≤ 6 * M := by
    have : ((t.toNat * S : Nat) : Int) ≤ ((6 * M : Nat) : Int) := by
      rw [hcast]; push_cast; exact hprod
    exact_mod_cast this
  have hlt : t.toNat * S < 2 ^ 256 := lt_of_le_of_lt hle hM6
  rw [Nat.mod_eq_of_lt hlt]
  exact ⟨hcast, _, rfl, le_trans (SetCompact_GetCompact_target_le _ hlt) hle⟩

/-- Witness for C18: the 47-block steady chain, every target at most decode(0x1d00ffff). -/
theorem LwmaCalculateNextWorkRequired_bounded_growth_witness :
    ∃ s, lwmaAccumulate steadyChain steadyParams = some s ∧
      lwmaFloor (lwmaK steadyParams.nZawyLwmaAveragingWindow steadyParams.nPowTargetSpacing) s.t
          * s.sum_target ≤ 6 * ((SetCompact 0x1d00ffff).target : Int) ∧
      (6 * (SetCompact 0x1d00ffff).target < 2 ^ 256 →
        ((ofInt64 (lwmaFloor
              (lwmaK steadyParams.nZawyLwmaAveragingWindow steadyParams.nPowTargetSpacing) s.t)
            * s.sum_target % 2 ^ 256 : Nat) : Int)
          = lwmaFloor
              (lwmaK steadyParams.nZawyLwmaAveragingWindow steadyParams.nPowTargetSpacing) s.t
              * s.sum_target ∧
        ∃ c, LwmaCalculateNextWorkRequired steadyChain steadyParams = some (c, s.reads) ∧
          (SetCompact c).target ≤ 6 * (SetCompact 0x1d00ffff).target) :=
  LwmaCalculateNextWorkRequired_bounded_growth steadyChain steadyParams
    (SetCompact 0x1d00ffff).target (by decide) (by decide) (by decide) (by decide) (by decide)

/-! ## Acceptance of retarget results -/

theorem CheckProofOfWork_false_of_gt (hash nBits : Nat) (params : Params)
    (h : (SetCompact nBits).target > UintToArith256 params.powLimit) :
    CheckProofOfWork hash nBits params = false := by
  unfold CheckProofOfWork
  simp [h]

theorem CheckProofOfWork_true_of_le (hash nBits : Nat) (params : Params)
    (hneg : (SetCompact nBits).fNegative = false)
    (hov : (SetCompact nBits).fOverflow = false)
    (hpos : 0 < (SetCompact nBits).target)
    (hle : (SetCompact nBits).target ≤ UintToArith256 params.powLimit)
    (hh : UintToArith256 hash ≤ (SetCompact nBits).target) :
    CheckProofOfWork hash nBits params = true := by
  have hb : ((SetCompact nBits).target == 0) = false := by
    simpa using (show ¬ (SetCompact nBits).target = 0 by omega)
  have hd : decide ((SetCompact nBits).target > UintToArith256 params.powLimit) = false := by
    simpa using hle
  have hg : ¬ UintToArith256 hash > (SetCompact nBits).target := by omega
  unfold CheckProofOfWork
  simp only [hneg, hov, hb, hd, Bool.or_self, Bool.false_eq_true, if_false, hg]

set_option maxRecDepth 100000 in
/-- C13: the retarget result is not clamped to powLimit.  With window 2,
spacing 10, powLimit = decode(0x1d00ffff) and a window of two blocks 60
seconds apart whose targets equal powLimit, `GetNextWorkRequired` returns
0x1d05fffa, which decodes above powLimit, and `CheckProofOfWork` rejects every
hash against it. -/
theorem GetNextWorkRequired_exceeds_powLimit :
    (∀ j : Nat, 1 ≤ j → j ≤ 2 →
      0 < targetAt (chainOfTimes [0, 10, 70, 130])
          (nHeight (chainOfTimes [0, 10, 70, 130]) - 2 + j) ∧
      targetAt (chainOfTimes [0, 10, 70, 130])
          (nHeight (chainOfTimes [0, 10, 70, 130]) - 2 + j)
        ≤ UintToArith256 slowParams.powLimit) ∧
    (GetNextWorkRequired (chainOfTimes [0, 10, 70, 130]) { nTime := 190 } slowParams).map
        Prod.fst = some 0x1d05fffa ∧
    (SetCompact 0x1d05fffa).target > UintToArith256 slowParams.powLimit ∧
    ∀ hash : Nat, CheckProofOfWork hash 0x1d05fffa slowParams = false :=
  ⟨by decide, by decide, by decide,
    fun hash => CheckProofOfWork_false_of_gt hash 0x1d05fffa slowParams (by decide)⟩

/-- C19: for every powLimit with `0 < powLimit < 2^256`, the compact value
`c = encode(powLimit)` returned by both bypasses decodes with negative = false,
overflow = false and `0 < decode(c) ≤ powLimit`, so `CheckProofOfWork` accepts
every hash that is at most `decode(c)`, the hash 0 among them. -/
theorem bypass_target_acceptable (params : Params)
    (hpos : 0 < params.powLimit) (hlt : params.powLimit < 2 ^ 256) :
    (SetCompact (GetCompact (UintToArith256 params.powLimit))).fNegative = false ∧
    (SetCompact (GetCompact (UintToArith256 params.powLimit))).fOverflow = false ∧
    0 < (SetCompact (GetCompact (UintToArith256 params.powLimit))).target ∧
    (SetCompact (GetCompact (UintToArith256 params.powLimit))).target ≤ params.powLimit ∧
    (∀ hash : Nat,
      UintToArith256 hash ≤ (SetCompact (GetCompact (UintToArith256 params.powLimit))).target →
      CheckProofOfWork hash (GetCompact (UintToArith256 params.powLimit)) params = true) ∧
    CheckProofOfWork 0 (GetCompact (UintToArith256 params.powLimit)) params = true := by
  have hU : UintToArith256 params.powLimit = params.powLimit := Nat.mod_eq_of_lt hlt
  rw [hU]
  have h := SetCompact_GetCompact params.powLimit hlt
  have hle := SetCompact_GetCompact_target_le params.powLimit hlt
  have hp : 0 < (SetCompact (GetCompact params.powLimit)).target := by
    have h1 := decode_encode_pos params.powLimit hlt hpos
    have h2 := decode_encode_le params.powLimit hlt
    show 0 < compactShifted (GetCompact params.powLimit) % 2 ^ 256
    rw [Nat.mod_eq_of_lt (lt_of_le_of_lt h2 hlt)]
    exact h1
  have hneg : (SetCompact (GetCompact params.powLimit)).fNegative = false := by rw [h]
  have hov : (SetCompact (GetCompact params.powLimit)).fOverflow = false := by rw [h]
  have hacc : ∀ hash : Nat,
      UintToArith256 hash ≤ (SetCompact (GetCompact params.powLimit)).target →
      CheckProofOfWork hash (GetCompact params.powLimit) params = true := by
    intro hash hh
    exact CheckProofOfWork_true_of_le hash _ params hneg hov hp (by rw [hU]; exact hle) hh
  exact ⟨hneg, hov, hp, hle, hacc, hacc 0 (Nat.zero_le _)⟩

set_option maxRecDepth 100000 in
/-- Witness for C19: powLimit = decode(0x1d00ffff). -/
theorem bypass_target_acceptable_witness :
    (SetCompact (GetCompact (UintToArith256 slowParams.powLimit))).fNegative = false ∧
    (SetCompact (GetCompact (UintToArith256 slowParams.powLimit))).fOverflow = false ∧
    0 < (SetCompact (GetCompact (UintToArith256 slowParams.powLimit))).target ∧
    (SetCompact (GetCompact (UintToArith256 slowParams.powLimit))).target
      ≤ slowParams.powLimit ∧
    (∀ hash : Nat,
      UintToArith256 hash
        ≤ (SetCompact (GetCompact (UintToArith256 slowParams.powLimit))).target →
      CheckProofOfWork hash (GetCompact (UintToArith256 slowParams.powLimit)) slowParams
        = true) ∧
    CheckProofOfWork 0 (GetCompact (UintToArith256 slowParams.powLimit)) slowParams = true :=
  bypass_target_acceptable slowParams (by decide) (by decide)

/-! ## Order of division -/

theorem sum_div_le_div_sum (n : Nat) (f : Nat → Nat) (d : Nat) :
    ∑ m in Finset.range n, f m / d ≤ (∑ m in Finset.range n, f m) / d := by
  induction n with
  | zero => simp
  | succ n ih =>
    rw [Finset.sum_range_succ, Finset.sum_range_succ]
    exact le_trans (Nat.add_le_add_right ih _) (Nat.add_div_le_add_div _ _ _)

theorem specSumTarget_le_sumThenDivide (chain : Chain) (N T : Int) :
    specSumTarget chain N T ≤ sumThenDivide chain N T := by
  unfold specSumTarget sumThenDivide
  rw [sum_Icc_one_eq_range, sum_Icc_one_eq_range]
  exact sum_div_le_div_sum _ _ _

set_option maxRecDepth 100000 in
/-- C17: for every window the per-term sum `sum_target` accumulated by the code
is at most the sum-then-divide value; and on a window of two blocks of target
90 (window 2, spacing 10, `k*N = 60`) the per-term sum is 2, the
sum-then-divide value is 3, and the compact results differ: the code returns
0x013c0000 where sum-then-divide would give 0x015a0000. -/
theorem LwmaCalculateNextWorkRequired_division_order (pindexLast : Chain) (params : Params)
    (hN : 1 ≤ params.nZawyLwmaAveragingWindow) (hT : 1 ≤ params.nPowTargetSpacing)
    (hh : params.nZawyLwmaAveragingWindow < nHeight pindexLast)
    (hfit : NoInt64Overflow params.nZawyLwmaAveragingWindow params.nPowTargetSpacing) :
    (∃ s, lwmaAccumulate pindexLast params = some s ∧
      s.sum_target = ∑ j in Finset.Icc 1 params.nZawyLwmaAveragingWindow.toNat,
        targetAt pindexLast (nHeight pindexLast - params.nZawyLwmaAveragingWindow + j)
          / (params.nZawyLwmaAveragingWindow * (params.nZawyLwmaAveragingWindow + 1)
              * params.nPowTargetSpacing / 2 * params.nZawyLwmaAveragingWindow).toNat ∧
      s.sum_target
        ≤ sumThenDivide pindexLast params.nZawyLwmaAveragingWindow params.nPowTargetSpacing) ∧
    ((lwmaAccumulate tinyChain smallParams).map LwmaState.sum_target = some 2 ∧
      sumThenDivide tinyChain smallParams.nZawyLwmaAveragingWindow
        smallParams.nPowTargetSpacing = 3 ∧
      (LwmaCalculateNextWorkRequired tinyChain smallParams).map Prod.fst = some 0x013c0000 ∧
      sumThenDivideNextTarget tinyChain smallParams.nZawyLwmaAveragingWindow
        smallParams.nPowTargetSpacing = 0x015a0000) := by
  refine ⟨⟨_, lwmaAccumulate_eq pindexLast params hN hT hh hfit, rfl,
    specSumTarget_le_sumThenDivide pindexLast _ _⟩, by decide, ?_, by decide, ?_⟩
  · unfold sumThenDivide
    rw [sum_Icc_one_eq_range]
    decide
  · have h1 : specWeightedTime tinyChain smallParams.nZawyLwmaAveragingWindow
        smallParams.nPowTargetSpacing = 30 := by
      unfold specWeightedTime
      rw [sum_Icc_one_eq_range]
      decide
    have h2 : sumThenDivide tinyChain smallParams.nZawyLwmaAveragingWindow
        smallParams.nPowTargetSpacing = 3 := by
      unfold sumThenDivide
      rw [sum_Icc_one_eq_range]
      decide
    unfold sumThenDivideNextTarget
    rw [h1, h2]
    decide

set_option maxRecDepth 100000 in
/-- Witness for C17: the 47-block steady chain with window 45 and spacing 600. -/
theorem LwmaCalculateNextWorkRequired_division_order_witness :
    (∃ s, lwmaAccumulate steadyChain steadyParams = some s ∧
      s.sum_target = ∑ j in Finset.Icc 1 steadyParams.nZawyLwmaAveragingWindow.toNat,
        targetAt steadyChain (nHeight steadyChain - steadyParams.nZawyLwmaAveragingWindow + j)
          / (steadyParams.nZawyLwmaAveragingWindow
              * (steadyParams.nZawyLwmaAveragingWindow + 1)
              * steadyParams.nPowTargetSpacing / 2
              * steadyParams.nZawyLwmaAveragingWindow).toNat ∧
      s.sum_target
        ≤ sumThenDivide steadyChain steadyParams.nZawyLwmaAveragingWindow
            steadyParams.nPowTargetSpacing) ∧
    ((lwmaAccumulate tinyChain smallParams).map LwmaState.sum_target = some 2 ∧
      sumThenDivide tinyChain smallParams.nZawyLwmaAveragingWindow
        smallParams.nPowTargetSpacing = 3 ∧
      (LwmaCalculateNextWorkRequired tinyChain smallParams).map Prod.fst = some 0x013c0000 ∧
      sumThenDivideNextTarget tinyChain smallParams.nZawyLwmaAveragingWindow
        smallParams.nPowTargetSpacing = 0x015a0000) :=
  LwmaCalculateNextWorkRequired_division_order steadyChain steadyParams
    (by decide) (by decide) (by decide) (by decide)

/-! ## Proof verifier: facts -/

/-- C14: for every header, parameters `(n, k)` and personalization string,
`CheckEquihashSolution` returns the verdict of the Equihash oracle on
`(n, k, state, header.solution)`, where `state` is the hash state initialised
with `(n, k, personalization)` and updated once with the serialised version,
previous hash, merkle root, time and target field followed by the nonce; the
preimage does not depend on `header.solution`. -/
theorem CheckEquihashSolution_eq_oracle {HashState : Type} (env : EquihashEnv HashState)
    (pblock : CBlockHeader) (n k : Nat) (personalizationString : String) :
    CheckEquihashSolution env pblock n k personalizationString
      = env.EhIsValidSolution n k
          (env.blake2b_update (env.EhInitialiseState n k personalizationString)
            (env.serializeInput
                { nVersion := pblock.nVersion
                  hashPrevBlock := pblock.hashPrevBlock
                  hashMerkleRoot := pblock.hashMerkleRoot
                  nTime := pblock.nTime
                  nBits := pblock.nBits }
              ++ env.serializeNonce pblock.nNonce))
          pblock.nSolution ∧
    ∀ solution : List Nat,
      equihashPreimage env { pblock with nSolution := solution } = equihashPreimage env pblock := by
  refine ⟨?_, fun _ => rfl⟩
  unfold CheckEquihashSolution equihashPreimage CEquihashInput.ofHeader
  simp only
  cases env.EhIsValidSolution n k
      (env.blake2b_update (env.EhInitialiseState n k personalizationString)
        (env.serializeInput
            { nVersion := pblock.nVersion
              hashPrevBlock := pblock.hashPrevBlock
              hashMerkleRoot := pblock.hashMerkleRoot
              nTime := pblock.nTime
              nBits := pblock.nBits }
          ++ env.serializeNonce pblock.nNonce))
      pblock.nSolution <;> rfl

end Pow
